import Mathlib

/-!
Shallow embedding of the `json-fixer` crate (tokenizer, parser, formatter)
translated from `src/jsonfixer/json_tokenizer.rs`, `src/jsonfixer/jsonparser.rs`,
`src/jsonfixer/jsonformatter.rs`, `src/jsonfixer/jsonfixer_config.rs`,
`src/jsonfixer/jsonfixer_error.rs` and `src/jsonfixer/mod.rs`.

Strings are modelled as `List Char` (Rust iterates `Chars`); positions use `Nat`.
The parser's mutual recursion is driven by an explicit fuel parameter;
`JsonFixer.fix` supplies `input.length + 2` fuel, which is more than the number
of tokens any run can consume (every loop iteration consumes at least one token
and every token at least one character).  Fuel exhaustion is signalled by the
extra `JsonFixerError.fuelExhausted` constructor, an embedding artifact that no
run started by `fixChars` ever reaches on the inputs considered here.
-/

/-- Position in the input text: `line` (1-based) and `column`
(0-based, incremented before use), from `json_tokenizer.rs` `Position`. -/
structure Position where
  line : Nat
  column : Nat
  deriving DecidableEq, Repr

/-- `JsonTokenizer::advance` position bookkeeping: `column += 1`, and on a
newline `line += 1; column = 1`. -/
def stepPos (p : Position) (c : Char) : Position :=
  if c = '\n' then ⟨p.line + 1, 1⟩ else ⟨p.line, p.column + 1⟩

/-- Position after consuming a whole list of characters. -/
def stepPosList (p : Position) (l : List Char) : Position :=
  l.foldl stepPos p

/-- Rust `char::is_whitespace`: the Unicode `White_Space` property
(exactly these 25 code points). -/
def rustIsWhitespace (c : Char) : Bool :=
  (9 ≤ c.toNat && c.toNat ≤ 13) || c.toNat = 32 || c.toNat = 0x85 ||
  c.toNat = 0xa0 || c.toNat = 0x1680 ||
  (0x2000 ≤ c.toNat && c.toNat ≤ 0x200a) ||
  c.toNat = 0x2028 || c.toNat = 0x2029 || c.toNat = 0x202f ||
  c.toNat = 0x205f || c.toNat = 0x3000

/-- Rust `char::is_digit(10)`. -/
def rustIsDigit (c : Char) : Bool :=
  48 ≤ c.toNat && c.toNat ≤ 57

/-- Start characters of identifier mode in `next_token`:
`'a'..='z' | 'A'..='Z' | '_'`. -/
def isIdentStart (c : Char) : Bool :=
  (97 ≤ c.toNat && c.toNat ≤ 122) || (65 ≤ c.toNat && c.toNat ≤ 90) ||
  c.toNat = 95

/-- Rust `char::is_alphanumeric` restricted to ASCII (the full Unicode
Alphabetic/Number tables are not reproduced; no claim below depends on
non-ASCII identifier continuation characters). -/
def rustIsAlphanumeric (c : Char) : Bool :=
  (97 ≤ c.toNat && c.toNat ≤ 122) || (65 ≤ c.toNat && c.toNat ≤ 90) ||
  rustIsDigit c

/-- Characters accepted by the greedy accumulation loop of
`tokenize_number`: digits, `.`, `e`, `E`, `+`, `-`. -/
def isNumChar (c : Char) : Bool :=
  rustIsDigit c || c = '.' || c = 'e' || c = 'E' || c = '+' || c = '-'

/-- `Token` from `json_tokenizer.rs`, each variant carrying its `Position`.
String-like payloads are `List Char`. -/
inductive Token where
  | leftBrace (pos : Position)
  | rightBrace (pos : Position)
  | leftBracket (pos : Position)
  | rightBracket (pos : Position)
  | colon (pos : Position)
  | comma (pos : Position)
  | string (s : List Char) (pos : Position)
  | number (s : List Char) (pos : Position)
  | boolean (b : Bool) (pos : Position)
  | null (pos : Position)
  | whitespace (s : List Char) (pos : Position)
  | unquotedString (s : List Char) (pos : Position)
  deriving DecidableEq, Repr

/-- `Token::get`: the string rendering used inside error messages. -/
def Token.get : Token → String
  | .leftBrace _ => "\x27\x7b\x27"
  | .rightBrace _ => "\x27\x7d\x27"
  | .leftBracket _ => "\x27[\x27"
  | .rightBracket _ => "\x27]\x27"
  | .colon _ => "\x27:\x27"
  | .comma _ => "\x27,\x27"
  | .string s _ => "String(" ++ String.mk s ++ ")"
  | .number s _ => "Number(" ++ String.mk s ++ ")"
  | .boolean b _ => if b then "Boolean(true)" else "Boolean(false)"
  | .null _ => "null"
  | .whitespace s _ => String.mk s
  | .unquotedString s _ => String.mk s

/-- `Token::pos`. -/
def Token.position : Token → Position
  | .leftBrace p => p
  | .rightBrace p => p
  | .leftBracket p => p
  | .rightBracket p => p
  | .colon p => p
  | .comma p => p
  | .string _ p => p
  | .number _ p => p
  | .boolean _ p => p
  | .null p => p
  | .whitespace _ p => p
  | .unquotedString _ p => p

/-- `SyntaxError` from `jsonfixer_error.rs`. -/
inductive SyntaxError where
  | unexpectedCharacter (c : Char) (pos : Position)
  | unmatchedQuotes (pos : Position)
  | unexpectedEndOfInput (pos : Position)
  | missingComma (pos : Position)
  | invalidNumber (s : String) (pos : Position)
  | unexpectedToken (s : String) (pos : Position)
  deriving DecidableEq, Repr

/-- `JsonFormatError` from `jsonfixer_error.rs` (never produced by any path). -/
inductive JsonFormatError where
  | lineTooLong (line length max : Nat)
  | invalidIndentation (line : Nat)
  deriving DecidableEq, Repr

/-- `JsonFixerError` from `jsonfixer_error.rs`.  `io` stands for the
`IO(std::fmt::Error)` variant (unreachable: `write!` into a `String` cannot
fail); `fuelExhausted` is the embedding's recursion-bound marker. -/
inductive JsonFixerError where
  | Syntax (e : SyntaxError)
  | format (e : JsonFormatError)
  | io
  | serdeError (s : String)
  | fuelExhausted
  deriving DecidableEq, Repr

/-- One step of the tokenizer: the produced value (or error), together with
the tokenizer state (remaining input, position) after the call, mirroring the
mutation of `JsonTokenizer` even on the error paths. -/
abbrev TokStep := Except JsonFixerError (Option Token) × List Char × Position

/-- Loop of `tokenize_whitespaces`: consume a maximal whitespace run. -/
def wsScan (p : Position) (acc : List Char) : List Char → List Char × Position × List Char
  | [] => (acc, p, [])
  | c :: rest =>
    if rustIsWhitespace c then wsScan (stepPos p c) (acc ++ [c]) rest
    else (acc, p, c :: rest)

/-- `u32::from_str_radix(hex, 16)` on the characters consumed by a `\u` escape
(accepts an optional leading `+`, then at least one hex digit). -/
def hexDigitVal (c : Char) : Option Nat :=
  if rustIsDigit c then some (c.toNat - 48)
  else if 97 ≤ c.toNat && c.toNat ≤ 102 then some (c.toNat - 97 + 10)
  else if 65 ≤ c.toNat && c.toNat ≤ 70 then some (c.toNat - 65 + 10)
  else none

def hexFromDigits (acc : Nat) : List Char → Option Nat
  | [] => some acc
  | c :: rest =>
    match hexDigitVal c with
    | some v => hexFromDigits (acc * 16 + v) rest
    | none => none

def hexFromStrRadix : List Char → Option Nat
  | [] => none
  | '+' :: rest => if rest = [] then none else hexFromDigits 0 rest
  | l => hexFromDigits 0 l

/-- `std::char::from_u32` guard composed with the push: a decoded `\uXXXX`
value is appended only when it is a valid scalar value, otherwise silently
dropped (`tokenize_string`'s unicode branch). -/
def pushUnicode (acc : List Char) (h1 h2 h3 h4 : Char) : List Char :=
  match hexFromStrRadix [h1, h2, h3, h4] with
  | some n => if h : n.isValidChar then acc ++ [Char.ofNatAux n h] else acc
  | none => acc

mutual
/-- Loop of `tokenize_string`, entered after the opening quote was consumed.
`startPos` is the position of the opening quote, `p` the current position.
On reaching end-of-input the result is `UnmatchedQuotes(startPos)` with the
whole input consumed.  The escape and `\u` sub-steps of the loop body are
split into `stringScanEscape` / `stringScanUnicode` for structural clarity;
together they are exactly the body of the source's `while let` loop. -/
def stringScan (quote : Char) (startPos : Position) (p : Position)
    (acc : List Char) : List Char → TokStep
  | [] => (.error (.Syntax (.unmatchedQuotes startPos)), [], p)
  | c :: rest =>
    if c = quote then (.ok (some (.string acc startPos)), rest, stepPos p c)
    else if c = '\\' then stringScanEscape quote startPos (stepPos p c) acc rest
    else stringScan quote startPos (stepPos p c) (acc ++ [c]) rest
  termination_by structural l => l

/-- The `'\\'` arm of the string loop: process one escape character (or hit
end-of-input with nothing after the backslash). -/
def stringScanEscape (quote : Char) (startPos : Position) (p : Position)
    (acc : List Char) : List Char → TokStep
  | [] => (.error (.Syntax (.unmatchedQuotes startPos)), [], p)
  | e :: rest2 =>
    let p2 := stepPos p e
    if e = '"' || e = '\\' || e = '/' then
      stringScan quote startPos p2 (acc ++ [e]) rest2
    else if e = 'b' then stringScan quote startPos p2 (acc ++ ['\x08']) rest2
    else if e = 'f' then stringScan quote startPos p2 (acc ++ ['\x0C']) rest2
    else if e = 'n' then stringScan quote startPos p2 (acc ++ ['\n']) rest2
    else if e = 'r' then stringScan quote startPos p2 (acc ++ ['\r']) rest2
    else if e = 't' then stringScan quote startPos p2 (acc ++ ['\t']) rest2
    else if e = 'u' then stringScanUnicode quote startPos p2 acc rest2
    else stringScan quote startPos p2 (acc ++ [e]) rest2
  termination_by structural l => l

/-- The `\u` sub-step: consume up to four characters; with fewer than four
remaining the `for _ in 0..4` exhausts the input and the loop then fails with
`UnmatchedQuotes`. -/
def stringScanUnicode (quote : Char) (startPos : Position) (p : Position)
    (acc : List Char) : List Char → TokStep
  | h1 :: h2 :: h3 :: h4 :: rest3 =>
    stringScan quote startPos (stepPosList p [h1, h2, h3, h4])
      (pushUnicode acc h1 h2 h3 h4) rest3
  | short => (.error (.Syntax (.unmatchedQuotes startPos)), [], stepPosList p short)
  termination_by structural l => l
end

/-- Greedy accumulation loop of `tokenize_number`.  Returns the accumulated
text, the multi-dot flag (only armed when the number started with a bare dot),
the position, and the remaining input. -/
def numScan (firstIsDot : Bool) (p : Position) (acc : List Char)
    (multiDots : Bool) : List Char → List Char × Bool × Position × List Char
  | [] => (acc, multiDots, p, [])
  | c :: rest =>
    if isNumChar c then
      numScan firstIsDot (stepPos p c) (acc ++ [c])
        (multiDots || (firstIsDot && c = '.')) rest
    else (acc, multiDots, p, c :: rest)

/-- Tail of `tokenize_number`: reject multi-dot bare-dot numbers, drop a
trailing `.`, and attach the *current* position (the source passes
`self.current_position()`, i.e. the position after the number, to the token). -/
def finishNumber (startPos p2 : Position) (num : List Char) (multiDots : Bool)
    (rem : List Char) : TokStep :=
  if multiDots then (.error (.Syntax (.invalidNumber (String.mk num) startPos)), rem, p2)
  else
    let num2 := if num.getLast? = some '.' then num.dropLast else num
    (.ok (some (.number num2 p2)), rem, p2)

/-- `tokenize_number`: `first` was already consumed, `p1` is its position
(= `start_pos`). -/
def tokenizeNumber (first : Char) (p1 : Position) (input : List Char) : TokStep :=
  if first = '+' || first = '.' then
    match input with
    | [] => (.error (.Syntax (.invalidNumber (String.mk [first]) p1)), [], p1)
    | c :: _ =>
      if rustIsDigit c then
        let acc0 := if first = '+' then [] else ['0', '.']
        let (num, multiDots, p2, rem) := numScan (first = '.') p1 acc0 false input
        finishNumber p1 p2 num multiDots rem
      else (.error (.Syntax (.invalidNumber (String.mk [first]) p1)), input, p1)
  else
    let (num, multiDots, p2, rem) := numScan false p1 [first] false input
    finishNumber p1 p2 num multiDots rem

/-- Loop of `tokenize_identifier`. -/
def identScan (p : Position) (acc : List Char) : List Char → List Char × Position × List Char
  | [] => (acc, p, [])
  | c :: rest =>
    if rustIsAlphanumeric c || c = '_' then
      identScan (stepPos p c) (acc ++ [c]) rest
    else (acc, p, c :: rest)

/-- `tokenize_identifier`: maps `true` / `false` / `null`, everything else is
an `UnquotedString`. -/
def tokenizeIdentifier (first : Char) (p1 : Position) (input : List Char) : TokStep :=
  let (id, p2, rem) := identScan p1 [first] input
  if id = ['t', 'r', 'u', 'e'] then (.ok (some (.boolean true p1)), rem, p2)
  else if id = ['f', 'a', 'l', 's', 'e'] then (.ok (some (.boolean false p1)), rem, p2)
  else if id = ['n', 'u', 'l', 'l'] then (.ok (some (.null p1)), rem, p2)
  else (.ok (some (.unquotedString id p1)), rem, p2)

/-- `JsonTokenizer::next_token`. -/
def nextToken (input : List Char) (p : Position) : TokStep :=
  match input with
  | [] => (.ok none, [], p)
  | c :: rest =>
    let p1 := stepPos p c
    if rustIsWhitespace c then
      let (run, p2, rem) := wsScan p1 [c] rest
      (.ok (some (.whitespace run p1)), rem, p2)
    else if c = '{' then (.ok (some (.leftBrace p1)), rest, p1)
    else if c = '}' then (.ok (some (.rightBrace p1)), rest, p1)
    else if c = '[' then (.ok (some (.leftBracket p1)), rest, p1)
    else if c = ']' then (.ok (some (.rightBracket p1)), rest, p1)
    else if c = ':' then (.ok (some (.colon p1)), rest, p1)
    else if c = ',' then (.ok (some (.comma p1)), rest, p1)
    else if c.toNat = 39 || c = '"' then stringScan c p1 p1 [] rest
    else if c = '.' || c = '+' || c = '-' || rustIsDigit c then
      tokenizeNumber c p1 rest
    else if isIdentStart c then tokenizeIdentifier c p1 rest
    else (.error (.Syntax (.unexpectedCharacter c p1)), rest, p1)

mutual
/-- `JsonValue` from `jsonparser.rs`. -/
inductive JsonValue where
  | null
  | boolean (b : Bool)
  | number (s : String)
  | string (s : String)
  | array (entries : List JsonEntryValue)
  | object (entries : List JsonEntryValue)
  | space (s : String)

/-- `JsonEntryValue` from `jsonparser.rs`: one slot of an array or object with
its four whitespace spans. -/
inductive JsonEntryValue where
  | mk (space_bf_key : Option String) (key : Option String)
       (space_af_key : Option String) (space_bf_val : Option String)
       (value : Option JsonValue) (space_af_val : Option String)
end

def JsonEntryValue.space_bf_key : JsonEntryValue → Option String
  | .mk sbk _ _ _ _ _ => sbk
def JsonEntryValue.key : JsonEntryValue → Option String
  | .mk _ k _ _ _ _ => k
def JsonEntryValue.space_af_key : JsonEntryValue → Option String
  | .mk _ _ sak _ _ _ => sak
def JsonEntryValue.space_bf_val : JsonEntryValue → Option String
  | .mk _ _ _ sbv _ _ => sbv
def JsonEntryValue.value : JsonEntryValue → Option JsonValue
  | .mk _ _ _ _ v _ => v
def JsonEntryValue.space_af_val : JsonEntryValue → Option String
  | .mk _ _ _ _ _ sav => sav

/-- `JsonEntryValue::get_sp_bf_key` (`unwrap_or_default`). -/
def JsonEntryValue.get_sp_bf_key (e : JsonEntryValue) : String :=
  e.space_bf_key.getD ""
/-- `JsonEntryValue::get_key` (`unwrap_or_default`). -/
def JsonEntryValue.get_key (e : JsonEntryValue) : String :=
  e.key.getD ""
/-- `JsonEntryValue::get_sp_af_key` (`unwrap_or_default`). -/
def JsonEntryValue.get_sp_af_key (e : JsonEntryValue) : String :=
  e.space_af_key.getD ""
/-- `JsonEntryValue::get_value` (`unwrap`; every caller first checks
`value.is_some()`, the `null` default is never observable). -/
def JsonEntryValue.get_value (e : JsonEntryValue) : JsonValue :=
  e.value.getD .null
/-- `JsonEntryValue::get_sp_bf_val` (`unwrap_or_default`). -/
def JsonEntryValue.get_sp_bf_val (e : JsonEntryValue) : String :=
  e.space_bf_val.getD ""
/-- `JsonEntryValue::get_sp_af_val` (`unwrap_or_default`). -/
def JsonEntryValue.get_sp_af_val (e : JsonEntryValue) : String :=
  e.space_af_val.getD ""

/-- `IndentStyle` from `jsonformatter.rs`. -/
inductive IndentStyle where
  | spaces
  | tabs
  deriving DecidableEq, Repr

/-- `IndentStyle::with_size` (always called with `Some(config.indent_size)`). -/
def IndentStyle.withSize : IndentStyle → Nat → String
  | .spaces, n => String.mk (List.replicate n ' ')
  | .tabs, _ => "\t"

/-- `JsonFixerConfig` from `jsonfixer_config.rs`. -/
structure JsonFixerConfig where
  preserve : Bool
  space_between : Bool
  beautify : Bool
  indent_style : IndentStyle
  indent_size : Nat
  sort_keys : Bool
  deriving Repr

/-- `JsonFixerConfig::default()`. -/
def JsonFixerConfig.default : JsonFixerConfig :=
  ⟨false, false, false, .spaces, 0, false⟩

/-- Method `JsonFixerConfig::preserve()`. -/
def JsonFixerConfig.preserveEff (c : JsonFixerConfig) : Bool := c.preserve
/-- Method `JsonFixerConfig::space_between()`: suppressed under preserve. -/
def JsonFixerConfig.spaceBetweenEff (c : JsonFixerConfig) : Bool :=
  c.space_between && !c.preserve
/-- Method `JsonFixerConfig::beautify()`: suppressed under preserve. -/
def JsonFixerConfig.beautifyEff (c : JsonFixerConfig) : Bool :=
  c.beautify && !c.preserve

/-- `JsonFormatter::write_indent`: the indent unit repeated `depth` times. -/
def writeIndent (depth : Nat) (cfg : JsonFixerConfig) : String :=
  String.join (List.replicate depth (cfg.indent_style.withSize cfg.indent_size))

/-- Rust stable `sort_by(|a, b| a.key.cmp(&b.key))` comparison on optional
keys: `None` sorts before `Some`, strings lexicographically. -/
def keyLe (a b : JsonEntryValue) : Bool :=
  match a.key, b.key with
  | none, _ => true
  | some _, none => false
  | some x, some y => x ≤ y

/-- Backward scan of `format_object_preserved`: find the last
non-whitespace character and, if it is a comma, remove it. -/
def stripTrailingComma (out : List Char) : List Char :=
  let rev := out.reverse
  match rev.findIdx? (fun ch => !rustIsWhitespace ch) with
  | some i => if rev.getD i ' ' = ',' then out.eraseIdx (out.length - i - 1) else out
  | none => out

/-- `clean_middle_spaces_and_sort` from `jsonformatter.rs`. -/
def cleanMiddleSpacesAndSort (obj : List JsonEntryValue)
    (cfg : JsonFixerConfig) : List JsonEntryValue :=
  let firstWs := obj.head?
  let lastWs := if obj.length > 1 then obj.getLast? else none
  let cleaned := obj.filter (fun e => e.value.isSome)
  let cleaned := if cfg.sort_keys then cleaned.mergeSort keyLe else cleaned
  let cleaned :=
    match firstWs with
    | some e => if e.value.isNone then e :: cleaned else cleaned
    | none => cleaned
  match lastWs with
  | some e => if e.value.isNone then cleaned ++ [e] else cleaned
  | none => cleaned

mutual
/-- `JsonFormatter::format_value` (fueled). -/
def formatValue : Nat → JsonValue → Nat → JsonFixerConfig → Except JsonFixerError String
  | 0, _, _, _ => .error .fuelExhausted
  | fuel + 1, v, depth, cfg =>
    match v with
    | .null => .ok "null"
    | .boolean b => .ok (if b then "true" else "false")
    | .number n => .ok n
    | .string s => .ok ("\"" ++ s ++ "\"")
    | .space sp => .ok sp
    | .array arr =>
      if cfg.preserveEff then formatArrayPreserved fuel arr depth cfg
      else formatArray fuel arr depth cfg
    | .object obj =>
      if cfg.preserveEff then formatObjectPreserved fuel obj depth cfg
      else formatObject fuel obj depth cfg
  termination_by structural fuel _ _ _ => fuel

/-- `JsonFormatter::format_array` (non-preserve). -/
def formatArray : Nat → List JsonEntryValue → Nat → JsonFixerConfig →
    Except JsonFixerError String
  | 0, _, _, _ => .error .fuelExhausted
  | fuel + 1, arr, depth, cfg =>
    if arr.isEmpty then .ok "[]"
    else do
      let body ← formatArrayEntries fuel arr 0 depth cfg
      .ok ("[" ++ (if cfg.beautifyEff then "\n" else "") ++
        (if cfg.spaceBetweenEff then " " else "") ++ body ++
        (if cfg.beautifyEff then "\n" ++ writeIndent depth cfg else "") ++
        (if cfg.spaceBetweenEff then " " else "") ++ "]")
  termination_by structural fuel _ _ _ => fuel

/-- The `for (i, entry)` loop of `format_array`: only entries carrying a value
emit anything; the separator check uses the index in the *unfiltered* list. -/
def formatArrayEntries : Nat → List JsonEntryValue → Nat → Nat → JsonFixerConfig →
    Except JsonFixerError String
  | 0, _, _, _, _ => .error .fuelExhausted
  | _ + 1, [], _, _, _ => .ok ""
  | fuel + 1, e :: rest, i, depth, cfg =>
    match e.value with
    | none => formatArrayEntries fuel rest (i + 1) depth cfg
    | some v => do
      let rendered ← formatValue fuel v (depth + 1) cfg
      let sep :=
        if i > 0 then
          "," ++ (if cfg.beautifyEff then "\n" else "") ++
          (if cfg.spaceBetweenEff then " " else "")
        else ""
      let tail ← formatArrayEntries fuel rest (i + 1) depth cfg
      .ok (sep ++ (if cfg.beautifyEff then writeIndent (depth + 1) cfg else "") ++
        rendered ++ tail)
  termination_by structural fuel _ _ _ _ => fuel

/-- `JsonFormatter::format_array_preserved`. -/
def formatArrayPreserved : Nat → List JsonEntryValue → Nat → JsonFixerConfig →
    Except JsonFixerError String
  | 0, _, _, _ => .error .fuelExhausted
  | fuel + 1, arr, depth, cfg =>
    if arr.isEmpty then .ok "[]"
    else do
      let body ← formatArrayPreservedEntries fuel arr 0 depth cfg
      .ok ("[" ++ body ++ "]")
  termination_by structural fuel _ _ _ => fuel

/-- The loop of `format_array_preserved`. -/
def formatArrayPreservedEntries : Nat → List JsonEntryValue → Nat → Nat →
    JsonFixerConfig → Except JsonFixerError String
  | 0, _, _, _, _ => .error .fuelExhausted
  | _ + 1, [], _, _, _ => .ok ""
  | fuel + 1, e :: rest, i, depth, cfg => do
    let comma := if i > 0 && e.value.isSome then "," else ""
    let rendered ←
      match e.value with
      | some v => formatValue fuel v (depth + 1) cfg
      | none => pure ""
    let tail ← formatArrayPreservedEntries fuel rest (i + 1) depth cfg
    .ok (comma ++ e.get_sp_bf_val ++ rendered ++ e.get_sp_af_val ++ tail)
  termination_by structural fuel _ _ _ _ => fuel

/-- `JsonFormatter::format_object` (non-preserve): defect entries are
filtered out *before* the emptiness check. -/
def formatObject : Nat → List JsonEntryValue → Nat → JsonFixerConfig →
    Except JsonFixerError String
  | 0, _, _, _ => .error .fuelExhausted
  | fuel + 1, obj, depth, cfg =>
    let entries := obj.filter (fun e => e.value.isSome)
    if entries.isEmpty then .ok "\x7b\x7d"
    else do
      let entries := if cfg.sort_keys then entries.mergeSort keyLe else entries
      let body ← formatObjectEntries fuel entries 0 depth cfg
      .ok ("\x7b" ++ (if cfg.beautifyEff then "\n" else "") ++
        (if cfg.spaceBetweenEff then " " else "") ++ body ++
        (if cfg.beautifyEff then "\n" ++ writeIndent depth cfg else "") ++
        (if cfg.spaceBetweenEff then " " else "") ++ "\x7d")
  termination_by structural fuel _ _ _ => fuel

/-- The loop of `format_object` (all entries carry a value here). -/
def formatObjectEntries : Nat → List JsonEntryValue → Nat → Nat → JsonFixerConfig →
    Except JsonFixerError String
  | 0, _, _, _, _ => .error .fuelExhausted
  | _ + 1, [], _, _, _ => .ok ""
  | fuel + 1, e :: rest, i, depth, cfg => do
    let rendered ← formatValue fuel e.get_value (depth + 1) cfg
    let sep :=
      if i > 0 then
        "," ++ (if cfg.beautifyEff then "\n" else "") ++
        (if cfg.spaceBetweenEff then " " else "")
      else ""
    let tail ← formatObjectEntries fuel rest (i + 1) depth cfg
    .ok (sep ++ (if cfg.beautifyEff then writeIndent (depth + 1) cfg else "") ++
      "\"" ++ e.get_key ++ "\"" ++ ":" ++
      (if cfg.spaceBetweenEff || cfg.beautifyEff then " " else "") ++
      rendered ++ tail)
  termination_by structural fuel _ _ _ _ => fuel

/-- `JsonFormatter::format_object_preserved`. -/
def formatObjectPreserved : Nat → List JsonEntryValue → Nat → JsonFixerConfig →
    Except JsonFixerError String
  | 0, _, _, _ => .error .fuelExhausted
  | fuel + 1, obj, depth, cfg =>
    let entries := cleanMiddleSpacesAndSort obj cfg
    if entries.isEmpty then .ok "\x7b\x7d"
    else do
      let body ← formatObjectPreservedEntries fuel entries depth cfg
      let region := stripTrailingComma ("\x7b" ++ body).data
      .ok (String.mk region ++ "\x7d")
  termination_by structural fuel _ _ _ => fuel

/-- The loop of `format_object_preserved`: defect entries re-emit their
whitespace, real entries emit key/colon/value with the captured spans and a
comma placed before or after the trailing span depending on a newline. -/
def formatObjectPreservedEntries : Nat → List JsonEntryValue → Nat →
    JsonFixerConfig → Except JsonFixerError String
  | 0, _, _, _ => .error .fuelExhausted
  | _ + 1, [], _, _ => .ok ""
  | fuel + 1, e :: rest, depth, cfg =>
    match e.value with
    | none => do
      let tail ← formatObjectPreservedEntries fuel rest depth cfg
      .ok (e.get_sp_bf_key ++ e.get_sp_af_key ++ tail)
    | some v => do
      let rendered ← formatValue fuel v (depth + 1) cfg
      let lastSpace := e.get_sp_af_val
      let tailPart :=
        if lastSpace.data.contains '\n' then "," ++ lastSpace
        else lastSpace ++ ","
      let tail ← formatObjectPreservedEntries fuel rest depth cfg
      .ok (e.get_sp_bf_key ++ "\"" ++ e.get_key ++ "\"" ++ e.get_sp_af_key ++
        ":" ++ e.get_sp_bf_val ++ rendered ++ tailPart ++ tail)
  termination_by structural fuel _ _ _ => fuel
end

/-- Exponent part of Rust's `f64::from_str` grammar: `('e'|'E')` was already
split off; here: optional sign, then at least one digit. -/
def f64ExpOk : List Char → Bool
  | [] => false
  | c :: rest =>
    if c = '+' || c = '-' then !rest.isEmpty && rest.all rustIsDigit
    else (c :: rest).all rustIsDigit

/-- Mantissa of Rust's `f64::from_str` grammar:
`Digit+ | Digit+ '.' Digit* | Digit* '.' Digit+`. -/
def f64MantissaOk (m : List Char) : Bool :=
  m.count '.' ≤ 1 && m.all (fun c => rustIsDigit c || c = '.') && m.any rustIsDigit

/-- Whether `text.parse::<f64>()` succeeds (purely syntactic: overflow still
parses, to infinity): optional sign, then `inf`/`infinity`/`nan`
(case-insensitive) or mantissa with optional exponent. -/
def parsesAsF64 (l : List Char) : Bool :=
  let l1 := match l with
    | c :: rest => if c = '+' || c = '-' then rest else l
    | [] => l
  let low := l1.map Char.toLower
  if low = ['i', 'n', 'f'] || low = ['i', 'n', 'f', 'i', 'n', 'i', 't', 'y'] ||
      low = ['n', 'a', 'n'] then true
  else
    match l1.findIdx? (fun c => c = 'e' || c = 'E') with
    | some i => f64MantissaOk (l1.take i) && f64ExpOk (l1.drop (i + 1))
    | none => f64MantissaOk l1

/-- `s.replace('"', "\\\"")` from `parse_value`'s `String` arm. -/
def replaceQuote : List Char → List Char
  | [] => []
  | c :: rest =>
    if c = '"' then '\\' :: '"' :: replaceQuote rest else c :: replaceQuote rest

/-- `JsonParser` state: the tokenizer (remaining input and position) plus the
one-token lookahead `current_token`. -/
structure ParserState where
  input : List Char
  pos : Position
  current : Option Token
  deriving DecidableEq, Repr

/-- `JsonParser::advance`, with the mutated state also on the error path
(`current_token` keeps its old value when `next_token` fails, because `?`
fires before the assignment). -/
def advance2 (st : ParserState) : Except JsonFixerError Unit × ParserState :=
  match nextToken st.input st.pos with
  | (.ok t, rem, p) => (.ok (), ⟨rem, p, t⟩)
  | (.error e, rem, p) => (.error e, ⟨rem, p, st.current⟩)

/-- `advance` as used inside `parse*` where an error aborts the whole call. -/
def advanceSt (st : ParserState) : Except JsonFixerError ParserState :=
  match advance2 st with
  | (.ok _, st2) => .ok st2
  | (.error e, _) => .error e

/-- The recurring `if let Some(Token::Whitespace(sp, _)) = &self.current_token
{ ... = Some(sp); self.advance()?; }` pattern. -/
def consumeWsInto (st : ParserState) :
    Except JsonFixerError (Option String × ParserState) :=
  match st.current with
  | some (.whitespace sp _) => do
    let st2 ← advanceSt st
    .ok (some (String.mk sp), st2)
  | _ => .ok (none, st)

mutual
/-- `JsonParser::parse_value` (fueled). -/
def parseValue : Nat → ParserState → Except JsonFixerError (JsonValue × ParserState)
  | 0, _ => .error .fuelExhausted
  | fuel + 1, st =>
    match st.current with
    | some (.leftBrace _) => parseObject fuel st
    | some (.leftBracket _) => parseArray fuel st
    | some (.string s _) => .ok (.string (String.mk (replaceQuote s)), st)
    | some (.number n pos) =>
      if parsesAsF64 n then .ok (.number (String.mk n), st)
      else .error (.Syntax (.invalidNumber (String.mk n) pos))
    | some (.boolean b _) => .ok (.boolean b, st)
    | some (.null _) => .ok (.null, st)
    | some (.unquotedString s pos) =>
      .error (.Syntax (.unexpectedToken (String.mk s) pos))
    | none => .error (.Syntax (.unexpectedEndOfInput st.pos))
    | some t => .error (.Syntax (.unexpectedToken t.get t.position))
  termination_by structural fuel _ => fuel

/-- `JsonParser::parse_object` (fueled): consume `{`, then loop. -/
def parseObject : Nat → ParserState → Except JsonFixerError (JsonValue × ParserState)
  | 0, _ => .error .fuelExhausted
  | fuel + 1, st => do
    let st1 ← advanceSt st
    parseObjectLoop fuel [] st1
  termination_by structural fuel _ => fuel

/-- The `while` loop of `parse_object`; `obj` is the accumulated entry list.
Every `break` is followed by the post-loop `advance` that consumes `}`. -/
def parseObjectLoop : Nat → List JsonEntryValue → ParserState →
    Except JsonFixerError (JsonValue × ParserState)
  | 0, _, _ => .error .fuelExhausted
  | fuel + 1, obj, st =>
    match st.current with
    | none => do
      let st2 ← advanceSt st
      .ok (.object obj, st2)
    | some (.rightBrace _) => do
      let st2 ← advanceSt st
      .ok (.object obj, st2)
    | some (.comma _) => do
      let st2 ← advanceSt st
      parseObjectLoop fuel obj st2
    | some tok => do
      let (sbk, st1) ←
        match tok with
        | .whitespace sp _ => do
          let st2 ← advanceSt st
          pure (some (String.mk sp), st2)
        | _ => pure ((none : Option String), st)
      match st1.current with
      | some (.rightBrace _) => do
        let st2 ← advanceSt st1
        .ok (.object (obj ++ [.mk sbk none none none none none]), st2)
      | some (.comma _) => do
        let st2 ← advanceSt st1
        parseObjectLoop fuel (obj ++ [.mk sbk none none none none none]) st2
      | some (.string k _) | some (.unquotedString k _) => do
        let st2 ← advanceSt st1
        let (sak, st3) ← consumeWsInto st2
        match st3.current with
        | some (.colon _) => do
          let st4 ← advanceSt st3
          let (sbv, st5) ← consumeWsInto st4
          let (v, st6) ← parseValue fuel st5
          let (sav, st7) ← consumeWsInto st6
          let st8 ← advanceSt st7
          parseObjectLoop fuel
            (obj ++ [.mk sbk (some (String.mk k)) sak sbv (some v) sav]) st8
        | some t =>
          .error (.Syntax (.unexpectedToken
            ("\nExpected \x27:\x27 after a \x27key\x27 but found " ++ t.get)
            t.position))
        | none => .error (.Syntax (.unexpectedEndOfInput st3.pos))
      | some t =>
        .error (.Syntax (.unexpectedToken
          ("\nExpected a \x27Key\x27 after \x27\x7b\x27 but found " ++ t.get)
          t.position))
      | none => do
        let st2 ← advanceSt st1
        .ok (.object (obj ++ [.mk sbk none none none none none]), st2)
  termination_by structural fuel _ _ => fuel

/-- `JsonParser::parse_array` (fueled): consume `[`, then loop. -/
def parseArray : Nat → ParserState → Except JsonFixerError (JsonValue × ParserState)
  | 0, _ => .error .fuelExhausted
  | fuel + 1, st => do
    let st1 ← advanceSt st
    parseArrayLoop fuel [] st1
  termination_by structural fuel _ => fuel

/-- The `while` loop of `parse_array`. -/
def parseArrayLoop : Nat → List JsonEntryValue → ParserState →
    Except JsonFixerError (JsonValue × ParserState)
  | 0, _, _ => .error .fuelExhausted
  | fuel + 1, arr, st =>
    match st.current with
    | none => do
      let st2 ← advanceSt st
      .ok (.array arr, st2)
    | some (.rightBracket _) => do
      let st2 ← advanceSt st
      .ok (.array arr, st2)
    | some (.comma _) => do
      let st2 ← advanceSt st
      parseArrayLoop fuel arr st2
    | some tok => do
      let (sbv, st1) ←
        match tok with
        | .whitespace sp _ => do
          let st2 ← advanceSt st
          pure (some (String.mk sp), st2)
        | _ => pure ((none : Option String), st)
      match st1.current with
      | some (.rightBracket _) => do
        let st2 ← advanceSt st1
        .ok (.array (arr ++ [.mk none none none sbv none none]), st2)
      | some (.comma _) => do
        let st2 ← advanceSt st1
        parseArrayLoop fuel (arr ++ [.mk none none none sbv none none]) st2
      | _ => do
        let currT := st1.current
        let (v, st2) ← parseValue fuel st1
        let st3 ← if currT = st2.current then advanceSt st2 else pure st2
        let (sav, st4) ← consumeWsInto st3
        parseArrayLoop fuel (arr ++ [.mk none none none sbv (some v) sav]) st4
  termination_by structural fuel _ _ => fuel
end

/-- The trailing loop of `JsonParser::parse`: only whitespace may remain. -/
def parseTrailing : Nat → ParserState → String → Except JsonFixerError String
  | 0, _, _ => .error .fuelExhausted
  | fuel + 1, st, out =>
    match st.current with
    | some (.whitespace _ _) => do
      let st2 ← advanceSt st
      parseTrailing fuel st2 out
    | some t =>
      .error (.Syntax (.unexpectedToken
        ("\nExpected  EOF but found " ++ t.get) t.position))
    | none => .ok out

/-- `JsonParser::parse`: optional leading whitespace, one value, the extra
`advance`, formatting, then the trailing loop. -/
def parse (fuel : Nat) (cfg : JsonFixerConfig) (st : ParserState) :
    Except JsonFixerError String := do
  let st1 ←
    match st.current with
    | some (.whitespace _ _) => advanceSt st
    | _ => pure st
  let (v, st2) ← parseValue fuel st1
  let st3 ← advanceSt st2
  let out ← formatValue fuel v 0 cfg
  parseTrailing fuel st3 out

/-- `JsonParser::new` + `parse`: the constructor pre-fetches the first token
*discarding any error* (`let _ = parser.advance();`), then `parse` runs.  The
fuel is `input.length + 2`. -/
def fixChars (cfg : JsonFixerConfig) (s : List Char) : Except JsonFixerError String :=
  let st0 : ParserState := ⟨s, ⟨1, 0⟩, none⟩
  let (_, st1) := advance2 st0
  parse (s.length + 2) cfg st1

namespace JsonFixer

/-- `JsonFixer::fix_with_config`. -/
def fix_with_config (input : String) (cfg : JsonFixerConfig) :
    Except JsonFixerError String :=
  fixChars cfg input.data

/-- `JsonFixer::fix` (default configuration). -/
def fix (input : String) : Except JsonFixerError String :=
  fixChars JsonFixerConfig.default input.data

/-- `JsonFixer::fix_with_space_between`. -/
def fix_with_space_between (input : String) : Except JsonFixerError String :=
  fixChars { JsonFixerConfig.default with
              space_between := true, beautify := false, preserve := false }
    input.data

/-- `JsonFixer::fix_pretty`. -/
def fix_pretty (input : String) : Except JsonFixerError String :=
  fixChars { JsonFixerConfig.default with
              beautify := true, preserve := false, space_between := false }
    input.data

end JsonFixer

instance {ε α : Type} [DecidableEq ε] [DecidableEq α] : DecidableEq (Except ε α)
  | .error e, .error f =>
    if h : e = f then .isTrue (h ▸ rfl)
    else .isFalse (fun hh => h (Except.error.inj hh))
  | .error _, .ok _ => .isFalse Except.noConfusion
  | .ok _, .error _ => .isFalse Except.noConfusion
  | .ok a, .ok b =>
    if h : a = b then .isTrue (h ▸ rfl)
    else .isFalse (fun hh => h (Except.ok.inj hh))

/-! ## Helpers for stating the claims -/

/-- Reduction helper: `Except.bind` on `ok`. -/
theorem exceptBind_ok {ε α β : Type} (a : α) (f : α → Except ε β) :
    (Except.ok a >>= f) = f a := rfl

/-- Reduction helper: `Except.bind` on `error`. -/
theorem exceptBind_error {ε α β : Type} (e : ε) (f : α → Except ε β) :
    ((Except.error e : Except ε α) >>= f) = .error e := rfl

/-- Does a `fix` result consist of the `UnexpectedEndOfInput` syntax error? -/
def isUnexpectedEndOfInputResult : Except JsonFixerError String → Bool
  | .error (.Syntax (.unexpectedEndOfInput _)) => true
  | _ => false

/-- Does a `fix` result consist of the `UnmatchedQuotes` syntax error? -/
def isUnmatchedQuotesResult : Except JsonFixerError String → Bool
  | .error (.Syntax (.unmatchedQuotes _)) => true
  | _ => false

/-- Does a `fix` result consist of the `UnexpectedToken` syntax error? -/
def isUnexpectedTokenResult : Except JsonFixerError String → Bool
  | .error (.Syntax (.unexpectedToken _ _)) => true
  | _ => false

/-- Body of a strict (RFC 8259) JSON string literal after the opening `"`:
unescaped characters are neither control characters, `"`, nor `\`; escapes are
the eight simple ones or `\u` with four hex digits; the final `"` closes the
literal and nothing follows. -/
def strictStringBody : List Char → Bool
  | [] => false
  | ['"'] => true
  | '"' :: _ => false
  | '\\' :: e :: rest =>
    if e = '"' || e = '\\' || e = '/' || e = 'b' || e = 'f' || e = 'n' ||
        e = 'r' || e = 't' then strictStringBody rest
    else if e = 'u' then
      match rest with
      | h1 :: h2 :: h3 :: h4 :: r =>
        (hexDigitVal h1).isSome && (hexDigitVal h2).isSome &&
        (hexDigitVal h3).isSome && (hexDigitVal h4).isSome && strictStringBody r
      | _ => false
    else false
  | c :: rest => 32 ≤ c.toNat && strictStringBody rest

/-- The input is one strict JSON document consisting of a single string
literal (hence satisfies strict JSON syntax as a top-level value). -/
def isStrictJsonString : List Char → Bool
  | '"' :: rest => strictStringBody rest
  | _ => false

/-- The `preserve = true` configuration (all other flags default). -/
def preserveConfig : JsonFixerConfig :=
  { JsonFixerConfig.default with preserve := true }

/-! ## C1 -/

/-- C1 counterexample: the input `"a\\b"` satisfies strict JSON syntax (a
string literal holding an escaped backslash), yet `fix` is not idempotent on
it with the default configuration: `fix` returns `"a\b"` (the backslash
escape is lost because only `"` is re-escaped), and fixing that output turns
`\b` into a backspace character, so `fix(fix(x)) ≠ fix(x)`. -/
theorem claim_C1_counterexample :
    isStrictJsonString "\"a\\\\b\"".data = true ∧
    JsonFixer.fix "\"a\\\\b\"" = .ok "\"a\\b\"" ∧
    JsonFixer.fix "\"a\\b\"" = .ok "\"a\x08\"" ∧
    ("\"a\x08\"" : String) ≠ "\"a\\b\"" := by
  refine ⟨by decide, by decide, by decide, by decide⟩

/-- C1 amended: with the default configuration, `fix(fix(x)) = fix(x)` on
strict-JSON inputs whose string literals contain no backslash escapes —
verified here on representative documents (an object, an array with nested
values, and whitespace-padded input); idempotence fails in general as soon as
a string contains an escape sequence. -/
theorem claim_C1_amended :
    (JsonFixer.fix "\x7b\"name\":\"John\",\"age\":30\x7d" =
        .ok "\x7b\"name\":\"John\",\"age\":30\x7d" ∧
      JsonFixer.fix "\x7b\"name\":\"John\",\"age\":30\x7d" =
        JsonFixer.fix "\x7b\"name\":\"John\",\"age\":30\x7d") ∧
    (JsonFixer.fix "[1,2.5e3,true,null,\"x\"]" = .ok "[1,2.5e3,true,null,\"x\"]") ∧
    (JsonFixer.fix " \x7b \"a\" : [ 1 , 2 ] \x7d " = .ok "\x7b\"a\":[1,2]\x7d" ∧
      JsonFixer.fix "\x7b\"a\":[1,2]\x7d" = .ok "\x7b\"a\":[1,2]\x7d") := by
  refine ⟨⟨by decide, rfl⟩, by decide, by decide, by decide⟩

/-! ## C4 -/

/-- C4: with the default configuration, object members separated only by
whitespace are repaired: `fix` on
`{"name": "John" "age": 30 "id": 0 }` succeeds and returns exactly
`{"name":"John","age":30,"id":0}`. -/
theorem claim_C4 :
    JsonFixer.fix "\x7b\"name\": \"John\" \"age\": 30 \"id\": 0 \x7d" =
      .ok "\x7b\"name\":\"John\",\"age\":30,\"id\":0\x7d" := by decide

/-! ## C2 -/

/-- C2 counterexample: `"\u0041"` is a defect-free strict-JSON document (with
"arbitrary interior whitespace", here none), but `fix` with `preserve = true`
returns `"A"`, not the original text: unicode escapes are decoded during
tokenization and never re-encoded, so preserve mode is not the identity on
all defect-free inputs. -/
theorem claim_C2_counterexample :
    isStrictJsonString "\"\\u0041\"".data = true ∧
    JsonFixer.fix_with_config "\"\\u0041\"" preserveConfig = .ok "\"A\"" ∧
    ("\"A\"" : String) ≠ "\"\\u0041\"" := by
  refine ⟨by decide, by decide, by decide⟩

/-! ## C6 -/

/-- C6 counterexample: an array whose only entry is a whitespace-carrying
defect entry (parsed from `"[  ]"`) does *not* render as `[]` in every
non-preserve configuration: with `beautify` (the `fix_pretty` preset) the
rendering is `"[\n\n]"`, because `format_array` checks emptiness of the raw
entry list before filtering, unlike `format_object`. -/
theorem claim_C6_counterexample :
    JsonFixer.fix_pretty "[  ]" = .ok "[\n\n]" ∧
    ("[\n\n]" : String) ≠ "[]" ∧
    JsonFixer.fix_with_space_between "[  ]" = .ok "[  ]" := by
  refine ⟨by decide, by decide, by decide⟩

/-- C6 amended: in any configuration, an *object* none of whose entries
carries a value renders as exactly `{}` (defect entries are filtered before
the emptiness check) provided `preserve` is off, and an array renders as
exactly `[]` whenever its entry list is literally empty (in any
configuration); an array holding only whitespace-carrying defect entries
instead renders as `[` + decorations + `]` (see the counterexample). -/
theorem claim_C6_amended :
    (∀ (fuel : Nat) (obj : List JsonEntryValue) (depth : Nat)
        (cfg : JsonFixerConfig), cfg.preserve = false →
      obj.all (fun e => e.value.isNone) = true →
      formatValue (fuel + 2) (.object obj) depth cfg = .ok "\x7b\x7d") ∧
    (∀ (fuel depth : Nat) (cfg : JsonFixerConfig),
      formatValue (fuel + 2) (.array []) depth cfg = .ok "[]") ∧
    JsonFixer.fix "[  ]" = .ok "[]" ∧
    JsonFixer.fix "\x7b  \x7d" = .ok "\x7b\x7d" := by
  refine ⟨?_, ?_, by decide, by decide⟩
  · intro fuel obj depth cfg hp hall
    have hfilter : obj.filter (fun e => e.value.isSome) = [] := by
      rw [List.filter_eq_nil_iff]
      intro e he
      have := List.all_eq_true.mp hall e he
      simp only [Option.isNone_iff_eq_none] at this
      simp [this]
    simp [formatValue, JsonFixerConfig.preserveEff, hp, formatObject, hfilter]
  · intro fuel depth cfg
    by_cases hp : cfg.preserveEff
    · simp [formatValue, hp, formatArrayPreserved]
    · simp [formatValue, hp, formatArray]

/-! ## Whitespace-run lemmas -/

/-- `tokenize_whitespaces` consumes an all-whitespace suffix entirely. -/
theorem wsScan_eq_of_all (l : List Char) : ∀ (p : Position) (acc : List Char),
    l.all rustIsWhitespace = true →
    wsScan p acc l = (acc ++ l, stepPosList p l, []) := by
  induction l with
  | nil => intro p acc _; simp [wsScan, stepPosList]
  | cons c t ih =>
    intro p acc h
    simp only [List.all_cons, Bool.and_eq_true] at h
    simp only [wsScan, h.1, if_true]
    rw [ih _ _ h.2]
    simp [stepPosList]

/-- `tokenize_whitespaces` consumes a maximal whitespace run and stops at the
first non-whitespace character. -/
theorem wsScan_eq_append (l : List Char) :
    ∀ (p : Position) (acc : List Char) (c : Char) (rest : List Char),
    l.all rustIsWhitespace = true → rustIsWhitespace c = false →
    wsScan p acc (l ++ c :: rest) = (acc ++ l, stepPosList p l, c :: rest) := by
  induction l with
  | nil => intro p acc c rest _ hc; simp [wsScan, hc, stepPosList]
  | cons d t ih =>
    intro p acc c rest h hc
    simp only [List.all_cons, Bool.and_eq_true] at h
    simp only [List.cons_append, wsScan, h.1, if_true, List.append_eq]
    rw [ih _ _ _ _ h.2 hc]
    simp [stepPosList]

/-! ## C10 -/

/-- C10: for the empty input and for every input consisting only of
whitespace characters, `fix` under any configuration fails with the
`UnexpectedEndOfInput` syntax error. -/
theorem claim_C10 (cfg : JsonFixerConfig) (s : String)
    (h : s.data.all rustIsWhitespace = true) :
    isUnexpectedEndOfInputResult (JsonFixer.fix_with_config s cfg) = true := by
  show isUnexpectedEndOfInputResult (fixChars cfg s.data) = true
  revert h
  generalize s.data = l
  intro h
  cases l with
  | nil => rfl
  | cons c t =>
    simp only [List.all_cons, Bool.and_eq_true] at h
    simp [fixChars, advance2, nextToken, h.1, wsScan_eq_of_all t _ _ h.2,
      parse, advanceSt, parseValue, exceptBind_ok, exceptBind_error,
      isUnexpectedEndOfInputResult]

/-- C10 witness: a concrete whitespace-only input under the default
configuration. -/
theorem claim_C10_witness :
    ("  \n ".data.all rustIsWhitespace = true) ∧
    isUnexpectedEndOfInputResult
      (JsonFixer.fix_with_config "  \n " JsonFixerConfig.default) = true :=
  ⟨by decide, claim_C10 JsonFixerConfig.default "  \n " (by decide)⟩

/-! ## Symbolic-execution step lemmas -/

/-- `pure` on `Except` is `ok`. -/
theorem exceptPure_eq {ε α : Type} (a : α) :
    (pure a : Except ε α) = Except.ok a := rfl

/-- `fixChars` unfolded to its `parse` call. -/
theorem fixChars_eq (cfg : JsonFixerConfig) (l : List Char) :
    fixChars cfg l = parse (l.length + 2) cfg (advance2 ⟨l, ⟨1, 0⟩, none⟩).2 := rfl

/-- `next_token` on a whitespace run followed by a non-whitespace character. -/
theorem nextToken_ws (c : Char) (t : List Char) (d : Char) (rest2 : List Char)
    (p : Position) (hc : rustIsWhitespace c = true)
    (ht : t.all rustIsWhitespace = true) (hd : rustIsWhitespace d = false) :
    nextToken (c :: (t ++ d :: rest2)) p =
      (.ok (some (.whitespace (c :: t) (stepPos p c))), d :: rest2,
        stepPosList (stepPos p c) t) := by
  simp [nextToken, hc, wsScan_eq_append t _ _ _ _ ht hd]

/-- `next_token` at end of input. -/
theorem nextToken_nil (p : Position) : nextToken [] p = (.ok none, [], p) := rfl

/-- Parser `advance` over a `}`. -/
theorem advanceSt_rbrace (l : List Char) (p : Position) (cur : Option Token) :
    advanceSt ⟨'\x7d' :: l, p, cur⟩ =
      .ok ⟨l, stepPos p '\x7d', some (.rightBrace (stepPos p '\x7d'))⟩ := rfl

/-- Parser `advance` over a `]`. -/
theorem advanceSt_rbracket (l : List Char) (p : Position) (cur : Option Token) :
    advanceSt ⟨']' :: l, p, cur⟩ =
      .ok ⟨l, stepPos p ']', some (.rightBracket (stepPos p ']'))⟩ := rfl

/-- Parser `advance` over a `,`. -/
theorem advanceSt_comma (l : List Char) (p : Position) (cur : Option Token) :
    advanceSt ⟨',' :: l, p, cur⟩ =
      .ok ⟨l, stepPos p ',', some (.comma (stepPos p ','))⟩ := rfl

/-- Parser `advance` at end of input. -/
theorem advanceSt_nil (p : Position) (cur : Option Token) :
    advanceSt ⟨[], p, cur⟩ = .ok ⟨[], p, none⟩ := rfl

/-- `findIdx?` over a whitespace run stops at the first non-whitespace
character. -/
theorem findIdx_ws_append (l : List Char) :
    ∀ (c : Char) (rest : List Char), l.all rustIsWhitespace = true →
    rustIsWhitespace c = false →
    (l ++ c :: rest).findIdx? (fun ch => !rustIsWhitespace ch) = some l.length := by
  induction l with
  | nil => intro c rest _ hc; simp [List.findIdx?_cons, hc]
  | cons d t ih =>
    intro c rest h hc
    simp only [List.all_cons, Bool.and_eq_true] at h
    simp [List.findIdx?_cons, h.1, ih c rest h.2 hc]

/-- The backward comma-strip of `format_object_preserved` leaves `{` followed
by whitespace untouched (the last non-whitespace character is the `{`). -/
theorem stripTrailingComma_brace_ws (w : List Char)
    (h : w.all rustIsWhitespace = true) :
    stripTrailingComma ('\x7b' :: w) = '\x7b' :: w := by
  have hall : w.reverse.all rustIsWhitespace = true := by simpa using h
  simp only [stripTrailingComma, List.reverse_cons,
    findIdx_ws_append w.reverse '\x7b' [] hall (by decide)]
  simp [List.getD]

/-- C2 amended: with `preserve = true`, `fix` maps an object containing only
an arbitrary (possibly empty) interior whitespace run to exactly the original
text; the claim's full generality fails because escape sequences inside
strings are normalised even in preserve mode (see the counterexample). -/
theorem claim_C2_amended (w : List Char) (h : w.all rustIsWhitespace = true) :
    JsonFixer.fix_with_config (String.mk ('\x7b' :: w ++ ['\x7d'])) preserveConfig =
      .ok (String.mk ('\x7b' :: w ++ ['\x7d'])) := by
  show fixChars preserveConfig ('\x7b' :: w ++ ['\x7d']) = _
  cases w with
  | nil => decide
  | cons c t =>
    simp only [List.all_cons, Bool.and_eq_true] at h
    obtain ⟨hc, ht⟩ := h
    have hA : advanceSt ⟨(c :: t) ++ ['\x7d'], ⟨1, 1⟩, some (Token.leftBrace ⟨1, 1⟩)⟩ =
        .ok ⟨['\x7d'], stepPosList (stepPos ⟨1, 1⟩ c) t,
          some (.whitespace (c :: t) (stepPos ⟨1, 1⟩ c))⟩ := by
      simp [advanceSt, advance2, nextToken_ws c t '\x7d' [] _ hc ht (by decide)]
    have hV : parseValue (t.length + 5)
        ⟨(c :: t) ++ ['\x7d'], ⟨1, 1⟩, some (.leftBrace ⟨1, 1⟩)⟩ =
        .ok (.object [.mk (some (String.mk (c :: t))) none none none none none],
          ⟨[], stepPos (stepPosList (stepPos ⟨1, 1⟩ c) t) '\x7d', none⟩) := by
      simp only [parseValue, parseObject, hA, exceptBind_ok]
      simp only [parseObjectLoop, advanceSt_rbrace, exceptBind_ok, exceptPure_eq,
        advanceSt_nil, List.nil_append]
    have hF : formatValue (t.length + 5)
        (.object [.mk (some (String.mk (c :: t))) none none none none none]) 0
        preserveConfig = .ok (String.mk ('\x7b' :: c :: t ++ ['\x7d'])) := by
      simp [formatValue, formatObjectPreserved, formatObjectPreservedEntries,
        cleanMiddleSpacesAndSort, preserveConfig, JsonFixerConfig.default,
        JsonFixerConfig.preserveEff, JsonEntryValue.value, JsonEntryValue.get_sp_bf_key,
        JsonEntryValue.get_sp_af_key, JsonEntryValue.space_bf_key,
        JsonEntryValue.space_af_key, exceptBind_ok, exceptPure_eq,
        stripTrailingComma_brace_ws (c :: t) (by simp [hc, ht])]
      apply String.ext
      simp
    rw [fixChars_eq]
    rw [show (('\x7b' :: (c :: t) ++ ['\x7d']).length + 2) = t.length + 5 from by simp]
    rw [show (advance2 ⟨'\x7b' :: c :: t ++ ['\x7d'], ⟨1, 0⟩, none⟩).2 =
      ⟨(c :: t) ++ ['\x7d'], ⟨1, 1⟩, some (.leftBrace ⟨1, 1⟩)⟩ from rfl]
    simp only [parse, exceptPure_eq, exceptBind_ok, hV, advanceSt_nil, hF, parseTrailing]

/-- C2 witness: the literal instance from the spec, `{   }` with three
interior spaces, round-trips unchanged under `preserve = true`. -/
theorem claim_C2_amended_witness :
    ("   ".data.all rustIsWhitespace = true) ∧
    JsonFixer.fix_with_config "\x7b   \x7d" preserveConfig = .ok "\x7b   \x7d" :=
  ⟨by decide, claim_C2_amended "   ".data (by decide)⟩

/-- C6 witness: the object part applied to a whitespace-defect entry under a
beautify configuration, and the empty-array part under a space-between
configuration. -/
theorem claim_C6_amended_witness :
    formatValue 2 (.object [.mk (some "  ") none none none none none]) 0
      ⟨false, false, true, .spaces, 4, false⟩ = .ok "\x7b\x7d" ∧
    formatValue 2 (.array []) 0 ⟨false, true, false, .spaces, 0, false⟩ = .ok "[]" :=
  ⟨claim_C6_amended.1 0 [.mk (some "  ") none none none none none] 0
      ⟨false, false, true, .spaces, 4, false⟩ rfl (by decide),
    claim_C6_amended.2.1 0 0 ⟨false, true, false, .spaces, 0, false⟩⟩

/-! ## Identifier lemmas (C8) -/

/-- `tokenize_identifier`'s loop consumes a run of identifier characters and
stops at the first non-identifier character. -/
theorem identScan_append (l : List Char) :
    ∀ (p : Position) (acc : List Char) (d : Char) (r : List Char),
    l.all (fun c => rustIsAlphanumeric c || c = '_') = true →
    (rustIsAlphanumeric d || d = '_') = false →
    identScan p acc (l ++ d :: r) = (acc ++ l, stepPosList p l, d :: r) := by
  induction l with
  | nil => intro p acc d r _ hd; simp [identScan, hd, stepPosList]
  | cons e t ih =>
    intro p acc d r h hd
    simp only [List.all_cons, Bool.and_eq_true] at h
    simp only [List.cons_append, identScan, h.1, if_true, List.append_eq]
    rw [ih _ _ _ _ h.2 hd]
    simp [stepPosList]

/-- Numeric bounds extracted from `isIdentStart`. -/
theorem identStart_bounds (c : Char) (h : isIdentStart c = true) :
    (97 ≤ c.toNat ∧ c.toNat ≤ 122 ∨ 65 ≤ c.toNat ∧ c.toNat ≤ 90) ∨ c.toNat = 95 := by
  simpa [isIdentStart, Bool.or_eq_true, Bool.and_eq_true,
    decide_eq_true_eq] using h

/-- `next_token` dispatches an identifier-start character into identifier
mode (such a character matches none of the earlier lexical classes). -/
theorem nextToken_identStart (c : Char) (l : List Char) (p : Position)
    (h : isIdentStart c = true) :
    nextToken (c :: l) p = tokenizeIdentifier c (stepPos p c) l := by
  have hn := identStart_bounds c h
  have hw : rustIsWhitespace c = false := by
    simp only [rustIsWhitespace, Bool.or_eq_false_iff, Bool.and_eq_false_iff,
      decide_eq_false_iff_not]
    omega
  have hq : (c.toNat = 39 || c = '"') = false := by
    have : c ≠ '"' := fun e => by subst e; revert hn; decide
    simp only [Bool.or_eq_false_iff, decide_eq_false_iff_not, this,
      not_false_eq_true, and_true]
    omega
  have hd : rustIsDigit c = false := by
    simp only [rustIsDigit, Bool.and_eq_false_iff, decide_eq_false_iff_not]
    omega
  have h1 : c ≠ '\x7b' := fun e => by subst e; revert hn; decide
  have h2 : c ≠ '\x7d' := fun e => by subst e; revert hn; decide
  have h3 : c ≠ '[' := fun e => by subst e; revert hn; decide
  have h4 : c ≠ ']' := fun e => by subst e; revert hn; decide
  have h5 : c ≠ ':' := fun e => by subst e; revert hn; decide
  have h6 : c ≠ ',' := fun e => by subst e; revert hn; decide
  have h7 : c ≠ '.' := fun e => by subst e; revert hn; decide
  have h8 : c ≠ '+' := fun e => by subst e; revert hn; decide
  have h9 : c ≠ '-' := fun e => by subst e; revert hn; decide
  simp [nextToken, hw, hq, hd, h1, h2, h3, h4, h5, h6, h7, h8, h9, h]

/-- `tokenize_identifier` on a full identifier followed by a non-identifier
character produces an `UnquotedString` token when the identifier is not one
of `true` / `false` / `null`. -/
theorem tokenizeIdentifier_eq (first : Char) (rest : List Char) (d : Char)
    (r : List Char) (p1 : Position)
    (hrest : rest.all (fun c => rustIsAlphanumeric c || c = '_') = true)
    (hd : (rustIsAlphanumeric d || d = '_') = false)
    (h1 : first :: rest ≠ ['t', 'r', 'u', 'e'])
    (h2 : first :: rest ≠ ['f', 'a', 'l', 's', 'e'])
    (h3 : first :: rest ≠ ['n', 'u', 'l', 'l']) :
    tokenizeIdentifier first p1 (rest ++ d :: r) =
      (.ok (some (.unquotedString (first :: rest) p1)), d :: r,
        stepPosList p1 rest) := by
  simp [tokenizeIdentifier, identScan_append rest _ _ _ _ hrest hd, h1, h2, h3]

/-- Parser `advance` over a `:`. -/
theorem advanceSt_colon (l : List Char) (p : Position) (cur : Option Token) :
    advanceSt ⟨':' :: l, p, cur⟩ =
      .ok ⟨l, stepPos p ':', some (.colon (stepPos p ':'))⟩ := rfl

/-! ## C8 -/

/-- C8: (i) whenever `parse_value` is entered with an `UnquotedString`
lookahead — i.e. whenever a bare identifier other than `true`/`false`/`null`
occurs in value position: as the top-level value, an array element, or after
a colon — it fails with `UnexpectedToken` carrying the identifier text and
its position; (ii) the same bare identifier in object-key position is
accepted and emitted double-quoted: for every identifier `first :: rest`,
`fix` of `{<ident>:1}` returns `{"<ident>":1}`; (iii) concrete value-position
instances at the top level, in an array, and after a colon all fail with
`UnexpectedToken`. -/
theorem claim_C8 :
    (∀ (fuel : Nat) (st : ParserState) (s : List Char) (pos : Position),
      st.current = some (.unquotedString s pos) →
      parseValue (fuel + 1) st =
        .error (.Syntax (.unexpectedToken (String.mk s) pos))) ∧
    (∀ (first : Char) (rest : List Char),
      isIdentStart first = true →
      rest.all (fun c => rustIsAlphanumeric c || c = '_') = true →
      first :: rest ≠ ['t', 'r', 'u', 'e'] →
      first :: rest ≠ ['f', 'a', 'l', 's', 'e'] →
      first :: rest ≠ ['n', 'u', 'l', 'l'] →
      JsonFixer.fix (String.mk ('\x7b' :: (first :: rest) ++ [':', '1', '\x7d'])) =
        .ok (String.mk ('\x7b' :: '"' :: (first :: rest) ++ ['"', ':', '1', '\x7d']))) ∧
    isUnexpectedTokenResult (JsonFixer.fix "x") = true ∧
    isUnexpectedTokenResult (JsonFixer.fix "[x]") = true ∧
    isUnexpectedTokenResult (JsonFixer.fix "\x7b\"a\": x\x7d") = true := by
  refine ⟨?_, ?_, by decide, by decide, by decide⟩
  · intro fuel st s pos h
    simp only [parseValue, h]
  · intro first rest hf hrest h1 h2 h3
    show fixChars JsonFixerConfig.default _ = _
    have hAdvId : advanceSt ⟨(first :: rest) ++ [':', '1', '\x7d'], ⟨1, 1⟩,
        some (Token.leftBrace ⟨1, 1⟩)⟩ =
        .ok ⟨[':', '1', '\x7d'], stepPosList (stepPos ⟨1, 1⟩ first) rest,
          some (.unquotedString (first :: rest) (stepPos ⟨1, 1⟩ first))⟩ := by
      simp [advanceSt, advance2, nextToken_identStart first _ _ hf,
        tokenizeIdentifier_eq first rest ':' ['1', '\x7d'] _ hrest (by decide) h1 h2 h3]
    have hV : parseValue (rest.length + 7)
        ⟨(first :: rest) ++ [':', '1', '\x7d'], ⟨1, 1⟩, some (.leftBrace ⟨1, 1⟩)⟩ =
        .ok (.object [.mk none (some (String.mk (first :: rest))) none none
            (some (.number "1")) none],
          ⟨[], stepPos (stepPos (stepPos (stepPosList (stepPos ⟨1, 1⟩ first) rest)
            ':') '1') '\x7d', none⟩) := by
      rw [show parseValue (rest.length + 7)
          ⟨(first :: rest) ++ [':', '1', '\x7d'], ⟨1, 1⟩, some (.leftBrace ⟨1, 1⟩)⟩ =
        (advanceSt ⟨(first :: rest) ++ [':', '1', '\x7d'], ⟨1, 1⟩,
            some (.leftBrace ⟨1, 1⟩)⟩ >>= fun st1 =>
          parseObjectLoop (rest.length + 5) [] st1) from rfl]
      rw [hAdvId, exceptBind_ok]
      rfl
    have hF : formatValue (rest.length + 7)
        (.object [.mk none (some (String.mk (first :: rest))) none none
          (some (.number "1")) none]) 0 JsonFixerConfig.default =
        .ok (String.mk ('\x7b' :: '"' :: (first :: rest) ++ ['"', ':', '1', '\x7d'])) := by
      exact congrArg Except.ok (String.ext (by
        simp [JsonFixerConfig.default, JsonFixerConfig.beautifyEff,
          JsonFixerConfig.spaceBetweenEff, JsonEntryValue.get_key, JsonEntryValue.key]))
    rw [fixChars_eq]
    rw [show (('\x7b' :: (first :: rest) ++ [':', '1', '\x7d']).length + 2)
      = rest.length + 7 from by simp]
    rw [show (advance2 ⟨'\x7b' :: (first :: rest) ++ [':', '1', '\x7d'], ⟨1, 0⟩, none⟩).2
      = ⟨(first :: rest) ++ [':', '1', '\x7d'], ⟨1, 1⟩, some (.leftBrace ⟨1, 1⟩)⟩ from rfl]
    simp only [parse, exceptPure_eq, exceptBind_ok]
    rw [hV]
    simp only [exceptBind_ok, advanceSt_nil]
    rw [hF]
    simp only [exceptBind_ok, parseTrailing]

/-- C8 witness: the `parse_value` part at a concrete state and the
key-position part at the identifier `x`. -/
theorem claim_C8_witness :
    parseValue 1 ⟨[], ⟨1, 1⟩, some (.unquotedString ['x'] ⟨1, 1⟩)⟩ =
      .error (.Syntax (.unexpectedToken "x" ⟨1, 1⟩)) ∧
    JsonFixer.fix "\x7bx:1\x7d" = .ok "\x7b\"x\":1\x7d" :=
  ⟨claim_C8.1 0 ⟨[], ⟨1, 1⟩, some (.unquotedString ['x'] ⟨1, 1⟩)⟩ ['x'] ⟨1, 1⟩ rfl,
    claim_C8.2.1 'x' [] (by decide) (by decide) (by decide) (by decide) (by decide)⟩

/-! ## Number lemmas (C5) -/

/-- The greedy number loop (not started by a bare dot) consumes a suffix made
entirely of numeric characters and never arms the multi-dot flag. -/
theorem numScan_all (l : List Char) : ∀ (p : Position) (acc : List Char),
    l.all isNumChar = true →
    numScan false p acc false l = (acc ++ l, false, stepPosList p l, []) := by
  induction l with
  | nil => intro p acc _; simp [numScan, stepPosList]
  | cons c t ih =>
    intro p acc h
    simp only [List.all_cons, Bool.and_eq_true] at h
    simp only [numScan, h.1, if_true, Bool.false_and, Bool.or_false]
    rw [ih _ _ h.2]
    simp [stepPosList]

/-- `next_token` dispatches a digit or `-` into number mode. -/
theorem nextToken_numStart (c : Char) (l : List Char) (p : Position)
    (h : rustIsDigit c = true ∨ c = '-') :
    nextToken (c :: l) p = tokenizeNumber c (stepPos p c) l := by
  rcases h with h | rfl
  · have hn : 48 ≤ c.toNat ∧ c.toNat ≤ 57 := by
      simpa [rustIsDigit, Bool.and_eq_true, decide_eq_true_eq] using h
    have hw : rustIsWhitespace c = false := by
      simp only [rustIsWhitespace, Bool.or_eq_false_iff, Bool.and_eq_false_iff,
        decide_eq_false_iff_not]
      omega
    have hq : (c.toNat = 39 || c = '"') = false := by
      have : c ≠ '"' := fun e => by subst e; revert hn; decide
      simp only [Bool.or_eq_false_iff, decide_eq_false_iff_not, this,
        not_false_eq_true, and_true]
      omega
    have h1 : c ≠ '\x7b' := fun e => by subst e; revert hn; decide
    have h2 : c ≠ '\x7d' := fun e => by subst e; revert hn; decide
    have h3 : c ≠ '[' := fun e => by subst e; revert hn; decide
    have h4 : c ≠ ']' := fun e => by subst e; revert hn; decide
    have h5 : c ≠ ':' := fun e => by subst e; revert hn; decide
    have h6 : c ≠ ',' := fun e => by subst e; revert hn; decide
    simp [nextToken, hw, hq, h1, h2, h3, h4, h5, h6, h]
  · rfl

/-- `tokenize_number` on a first character that is neither `+` nor `.`
followed by a purely numeric suffix and end of input: the raw text is kept
verbatim (no trailing dot to pop). -/
theorem tokenizeNumber_eq (c : Char) (rest : List Char) (p1 : Position)
    (hc1 : c ≠ '+') (hc2 : c ≠ '.')
    (hall : rest.all isNumChar = true)
    (hlast : (c :: rest).getLast? ≠ some '.') :
    tokenizeNumber c p1 rest =
      (.ok (some (.number (c :: rest) (stepPosList p1 rest))), [],
        stepPosList p1 rest) := by
  simp only [tokenizeNumber, hc1, hc2, decide_False, Bool.or_self, Bool.false_eq_true,
    if_false, numScan_all rest p1 [c] hall, List.singleton_append, finishNumber,
    if_neg hlast]

/-! ## C5 -/

/-- C5: number text round-trips leniently but verbatim.  (i) For every number
already in valid form — first character a digit or `-` (no leading `+` or
bare dot), remaining characters numeric, no trailing dot, and accepted by the
64-bit-float re-parse — `fix` with the default configuration returns exactly
the original text (exponents and signs survive unchanged).  (ii) `1e5` inside
an object stays `1e5` (not `100000`); (iii) a leading dot gains a zero:
`.123` renders as `0.123`; (iv) a trailing dot is dropped: `123.` renders as
`123`; (v) a leading plus is stripped: `+7` renders as `7`. -/
theorem claim_C5 :
    (∀ (c : Char) (rest : List Char),
      rustIsDigit c = true ∨ c = '-' →
      rest.all isNumChar = true →
      (c :: rest).getLast? ≠ some '.' →
      parsesAsF64 (c :: rest) = true →
      JsonFixer.fix (String.mk (c :: rest)) = .ok (String.mk (c :: rest))) ∧
    JsonFixer.fix "\x7b\"num\": 1e5\x7d" = .ok "\x7b\"num\":1e5\x7d" ∧
    JsonFixer.fix ".123" = .ok "0.123" ∧
    JsonFixer.fix "123." = .ok "123" ∧
    JsonFixer.fix "+7" = .ok "7" := by
  refine ⟨?_, by decide, by decide, by decide, by decide⟩
  intro c rest hstart hall hlast hf64
  show fixChars JsonFixerConfig.default _ = _
  have hc1 : c ≠ '+' := by
    rcases hstart with h | rfl
    · exact fun e => by subst e; revert h; decide
    · decide
  have hc2 : c ≠ '.' := by
    rcases hstart with h | rfl
    · exact fun e => by subst e; revert h; decide
    · decide
  have hAdv : (advance2 ⟨c :: rest, ⟨1, 0⟩, none⟩).2 =
      ⟨[], stepPosList (stepPos ⟨1, 0⟩ c) rest,
        some (.number (c :: rest) (stepPosList (stepPos ⟨1, 0⟩ c) rest))⟩ := by
    simp [advance2, nextToken_numStart c rest _ hstart,
      tokenizeNumber_eq c rest _ hc1 hc2 hall hlast]
  rw [fixChars_eq]
  rw [show ((c :: rest).length + 2) = rest.length + 3 from by simp]
  rw [hAdv]
  simp only [parse, exceptPure_eq, exceptBind_ok]
  rw [show parseValue (rest.length + 3)
      ⟨[], stepPosList (stepPos ⟨1, 0⟩ c) rest,
        some (.number (c :: rest) (stepPosList (stepPos ⟨1, 0⟩ c) rest))⟩ =
    (if parsesAsF64 (c :: rest) then
      .ok (.number (String.mk (c :: rest)),
        ⟨[], stepPosList (stepPos ⟨1, 0⟩ c) rest,
          some (.number (c :: rest) (stepPosList (stepPos ⟨1, 0⟩ c) rest))⟩)
    else .error (.Syntax (.invalidNumber (String.mk (c :: rest))
      (stepPosList (stepPos ⟨1, 0⟩ c) rest)))) from rfl]
  simp only [hf64, if_true, exceptBind_ok, advanceSt_nil]
  rw [show formatValue (rest.length + 3) (.number (String.mk (c :: rest))) 0
    JsonFixerConfig.default = .ok (String.mk (c :: rest)) from rfl]
  simp only [exceptBind_ok, parseTrailing]

/-- C5 witness: the universal verbatim part applied to `1e5` and `-1.23e+4`. -/
theorem claim_C5_witness :
    JsonFixer.fix "1e5" = .ok "1e5" ∧
    JsonFixer.fix "-1.23e+4" = .ok "-1.23e+4" :=
  ⟨claim_C5.1 '1' ['e', '5'] (by decide) (by decide) (by decide) (by decide),
    claim_C5.1 '-' "1.23e+4".data (by decide) (by decide) (by decide) (by decide)⟩

/-! ## String-scan lemmas (C7) -/

/-- Unpacking `contains` over a cons cell. -/
theorem contains_cons_false {c quote : Char} {rest : List Char}
    (h : (c :: rest).contains quote = false) :
    quote ≠ c ∧ rest.contains quote = false := by
  simpa [List.contains_cons, beq_eq_false_iff_ne] using h

/-- One plain-character step of the string loop. -/
theorem stringScan_step_plain (quote : Char) (sp p : Position) (acc : List Char)
    (c : Char) (rest : List Char) (h1 : c ≠ quote) (h2 : c ≠ '\\') :
    stringScan quote sp p acc (c :: rest) =
      stringScan quote sp (stepPos p c) (acc ++ [c]) rest := by
  rw [stringScan]
  rw [if_neg h1, if_neg h2]

/-- If the quote character never occurs in the remaining input, every phase
of the string loop ends in `UnmatchedQuotes` at the string's start position. -/
theorem noQuote_aux : ∀ (n : Nat) (l : List Char) (quote : Char)
    (sp p : Position) (acc : List Char),
    l.length ≤ n → l.contains quote = false →
    (stringScan quote sp p acc l).1 = .error (.Syntax (.unmatchedQuotes sp)) ∧
    (stringScanEscape quote sp p acc l).1 = .error (.Syntax (.unmatchedQuotes sp)) ∧
    (stringScanUnicode quote sp p acc l).1 = .error (.Syntax (.unmatchedQuotes sp)) := by
  intro n
  induction n with
  | zero =>
    intro l quote sp p acc hlen _
    have hl : l = [] := List.length_eq_zero.mp (Nat.le_zero.mp hlen)
    subst hl
    exact ⟨rfl, rfl, rfl⟩
  | succ m ih =>
    intro l quote sp p acc hlen hcont
    match l, hlen, hcont with
    | [], _, _ => exact ⟨rfl, rfl, rfl⟩
    | c :: rest, hlen, hcont =>
      obtain ⟨hqc, hrest⟩ := contains_cons_false hcont
      have hlen' : rest.length ≤ m := by
        simp only [List.length_cons] at hlen
        omega
      refine ⟨?_, ?_, ?_⟩
      · by_cases hbs : c = '\\'
        · subst hbs
          rw [stringScan, if_neg (Ne.symm hqc), if_pos rfl]
          exact (ih rest quote sp _ acc hlen' hrest).2.1
        · rw [stringScan_step_plain _ _ _ _ _ _ (Ne.symm hqc) hbs]
          exact (ih rest quote sp _ _ hlen' hrest).1
      · rw [stringScanEscape]
        repeat' split
        all_goals
          first
            | exact (ih rest quote sp _ _ hlen' hrest).1
            | exact (ih rest quote sp _ _ hlen' hrest).2.2
      · match rest, hlen', hrest with
        | [], _, _ => rfl
        | [a], _, _ => rfl
        | [a, b], _, _ => rfl
        | a :: b :: d :: r, hlen', hrest =>
          rw [stringScanUnicode]
          have hr : r.contains quote = false :=
            (contains_cons_false (contains_cons_false
              (contains_cons_false hrest).2).2).2
          have hrl : r.length ≤ m := by
            simp only [List.length_cons] at hlen'
            omega
          exact (ih r quote sp _ _ hrl hr).1

/-! ## C7 -/

/-- The input contains a quote character (single or double) after which that
same character never occurs again — i.e. a string literal whose closing
quote never appears before end-of-input. -/
def hasUnterminatedLiteral : List Char → Bool
  | [] => false
  | c :: rest =>
    ((c = '"' || c.toNat = 39) && !(rest.contains c)) || hasUnterminatedLiteral rest

/-- C7 counterexample: the input `"John` *is* an unterminated string literal,
yet `fix` fails with `UnexpectedEndOfInput`, not `UnmatchedQuotes`: the
string is the first token, `JsonParser::new` discards the error of its
initial `advance` (`let _ = parser.advance();`), the lookahead stays `None`,
and `parse_value` then reports end-of-input at the post-scan position. -/
theorem claim_C7_counterexample :
    hasUnterminatedLiteral "\"John".data = true ∧
    JsonFixer.fix "\"John" = .error (.Syntax (.unexpectedEndOfInput ⟨1, 5⟩)) ∧
    isUnmatchedQuotesResult (JsonFixer.fix "\"John") = false := by
  refine ⟨by decide, by decide, by decide⟩

/-- C7 amended: whenever the tokenizer scans a string literal whose quote
character never reappears in the remaining input, the scan fails with
`UnmatchedQuotes` carrying the Position where the string started; lifted to
`fix` on the spec's own example, `{"name": "John` fails with
`UnmatchedQuotes` at the opening quote of `"John` (line 1, column 10).  The
claim's universal form over *inputs that contain* such a literal fails when
an earlier error preempts the scan — in particular when the unterminated
string is the very first token (see the counterexample). -/
theorem claim_C7_amended :
    (∀ (quote : Char) (sp p : Position) (acc l : List Char),
      l.contains quote = false →
      (stringScan quote sp p acc l).1 =
        .error (.Syntax (.unmatchedQuotes sp))) ∧
    JsonFixer.fix "\x7b\"name\": \"John" =
      .error (.Syntax (.unmatchedQuotes ⟨1, 10⟩)) := by
  refine ⟨?_, by decide⟩
  intro quote sp p acc l h
  exact (noQuote_aux l.length l quote sp p acc le_rfl h).1

/-- C7 witness: the universal part applied to the scan state right after the
opening quote of `"John`. -/
theorem claim_C7_amended_witness :
    (stringScan '"' ⟨1, 10⟩ ⟨1, 10⟩ [] "John".data).1 =
      .error (.Syntax (.unmatchedQuotes ⟨1, 10⟩)) :=
  claim_C7_amended.1 '"' ⟨1, 10⟩ ⟨1, 10⟩ [] "John".data (by decide)


/-! ## Comma-absorption loop lemmas (C3) -/

/-- The `parse_array` loop, positioned on a comma with only commas left
before the closing bracket, absorbs them all: the accumulated entries are
returned unchanged and the input is consumed to the end. -/
theorem parseArrayLoop_commas : ∀ (j fuel : Nat) (p q : Position)
    (arr : List JsonEntryValue), j + 2 ≤ fuel →
    ∃ p', parseArrayLoop fuel arr
        ⟨List.replicate j ',' ++ [']'], p, some (.comma q)⟩ =
      .ok (.array arr, ⟨[], p', none⟩) := by
  intro j
  induction j with
  | zero =>
    intro fuel p q arr hf
    obtain ⟨F, rfl⟩ : ∃ F, fuel = F + 1 := ⟨fuel - 1, by omega⟩
    rw [show parseArrayLoop (F + 1) arr
        ⟨List.replicate 0 ',' ++ [']'], p, some (.comma q)⟩ =
      (advanceSt ⟨[']'], p, some (.comma q)⟩ >>= fun st2 =>
        parseArrayLoop F arr st2) from rfl]
    rw [advanceSt_rbracket, exceptBind_ok]
    obtain ⟨G, rfl⟩ : ∃ G, F = G + 1 := ⟨F - 1, by omega⟩
    refine ⟨stepPos p ']', ?_⟩
    rw [show parseArrayLoop (G + 1) arr
        ⟨[], stepPos p ']', some (.rightBracket (stepPos p ']'))⟩ =
      (advanceSt ⟨[], stepPos p ']', some (.rightBracket (stepPos p ']'))⟩ >>=
        fun st2 => .ok (.array arr, st2)) from rfl]
    rw [advanceSt_nil, exceptBind_ok]
  | succ j ih =>
    intro fuel p q arr hf
    obtain ⟨F, rfl⟩ : ∃ F, fuel = F + 1 := ⟨fuel - 1, by omega⟩
    rw [List.replicate_succ, List.cons_append]
    rw [show parseArrayLoop (F + 1) arr
        ⟨',' :: (List.replicate j ',' ++ [']']), p, some (.comma q)⟩ =
      (advanceSt ⟨',' :: (List.replicate j ',' ++ [']']), p, some (.comma q)⟩ >>=
        fun st2 => parseArrayLoop F arr st2) from rfl]
    rw [advanceSt_comma, exceptBind_ok]
    exact ih F _ _ arr (by omega)


/-- The `parse_object` loop, positioned on a comma with only commas left
before the closing brace, absorbs them all. -/
theorem parseObjectLoop_commas : ∀ (j fuel : Nat) (p q : Position)
    (obj : List JsonEntryValue), j + 2 ≤ fuel →
    ∃ p', parseObjectLoop fuel obj
        ⟨List.replicate j ',' ++ ['\x7d'], p, some (.comma q)⟩ =
      .ok (.object obj, ⟨[], p', none⟩) := by
  intro j
  induction j with
  | zero =>
    intro fuel p q obj hf
    obtain ⟨F, rfl⟩ : ∃ F, fuel = F + 1 := ⟨fuel - 1, by omega⟩
    rw [show parseObjectLoop (F + 1) obj
        ⟨List.replicate 0 ',' ++ ['\x7d'], p, some (.comma q)⟩ =
      (advanceSt ⟨['\x7d'], p, some (.comma q)⟩ >>= fun st2 =>
        parseObjectLoop F obj st2) from rfl]
    rw [advanceSt_rbrace, exceptBind_ok]
    obtain ⟨G, rfl⟩ : ∃ G, F = G + 1 := ⟨F - 1, by omega⟩
    refine ⟨stepPos p '\x7d', ?_⟩
    rw [show parseObjectLoop (G + 1) obj
        ⟨[], stepPos p '\x7d', some (.rightBrace (stepPos p '\x7d'))⟩ =
      (advanceSt ⟨[], stepPos p '\x7d', some (.rightBrace (stepPos p '\x7d'))⟩ >>=
        fun st2 => .ok (.object obj, st2)) from rfl]
    rw [advanceSt_nil, exceptBind_ok]
  | succ j ih =>
    intro fuel p q obj hf
    obtain ⟨F, rfl⟩ : ∃ F, fuel = F + 1 := ⟨fuel - 1, by omega⟩
    rw [List.replicate_succ, List.cons_append]
    rw [show parseObjectLoop (F + 1) obj
        ⟨',' :: (List.replicate j ',' ++ ['\x7d']), p, some (.comma q)⟩ =
      (advanceSt ⟨',' :: (List.replicate j ',' ++ ['\x7d']), p, some (.comma q)⟩ >>=
        fun st2 => parseObjectLoop F obj st2) from rfl]
    rw [advanceSt_comma, exceptBind_ok]
    exact ih F _ _ obj (by omega)


/-! ## C3 -/

/-- C3: for every `k ≥ 0`, `fix` with the default configuration maps
`"[1,2,3" ++ ","*k ++ "]"` to exactly `"[1,2,3]"` and
`"{\"a\":1" ++ ","*k ++ "}"` to exactly `"{\"a\":1}"`: arbitrarily many
trailing commas are absorbed. -/
theorem claim_C3 (k : Nat) :
    JsonFixer.fix (String.mk ('[' :: '1' :: ',' :: '2' :: ',' :: '3' ::
        (List.replicate k ',' ++ [']']))) = .ok "[1,2,3]" ∧
    JsonFixer.fix (String.mk ('\x7b' :: '"' :: 'a' :: '"' :: ':' :: '1' ::
        (List.replicate k ',' ++ ['\x7d']))) = .ok "\x7b\"a\":1\x7d" := by
  cases k with
  | zero => exact ⟨by decide, by decide⟩
  | succ j =>
    rw [List.replicate_succ, List.cons_append]
    constructor
    · show fixChars JsonFixerConfig.default ('[' :: '1' :: ',' :: '2' :: ',' :: '3' ::
          (',' :: (List.replicate j ',' ++ [']']))) = _
      rw [fixChars_eq]
      rw [show (('[' :: '1' :: ',' :: '2' :: ',' :: '3' ::
          (',' :: (List.replicate j ',' ++ [']']))).length + 2) = j + 10 from by
        simp]
      rw [show (advance2 ⟨'[' :: '1' :: ',' :: '2' :: ',' :: '3' ::
          (',' :: (List.replicate j ',' ++ [']'])), ⟨1, 0⟩, none⟩).2 =
        ⟨'1' :: ',' :: '2' :: ',' :: '3' :: (',' :: (List.replicate j ',' ++ [']'])),
          ⟨1, 1⟩, some (.leftBracket ⟨1, 1⟩)⟩ from rfl]
      simp only [parse, exceptPure_eq, exceptBind_ok]
      rw [show parseValue (j + 10)
          ⟨'1' :: ',' :: '2' :: ',' :: '3' :: (',' :: (List.replicate j ',' ++ [']'])),
            ⟨1, 1⟩, some (.leftBracket ⟨1, 1⟩)⟩ =
        parseArrayLoop (j + 3)
          [.mk none none none none (some (.number "1")) none,
           .mk none none none none (some (.number "2")) none,
           .mk none none none none (some (.number "3")) none]
          ⟨List.replicate j ',' ++ [']'], ⟨1, 7⟩, some (.comma ⟨1, 7⟩)⟩ from rfl]
      obtain ⟨p', hloop⟩ := parseArrayLoop_commas j (j + 3) ⟨1, 7⟩ ⟨1, 7⟩
        [.mk none none none none (some (.number "1")) none,
         .mk none none none none (some (.number "2")) none,
         .mk none none none none (some (.number "3")) none] (by omega)
      rw [hloop]
      simp only [exceptBind_ok, advanceSt_nil]
      rw [show formatValue (j + 10)
          (.array [.mk none none none none (some (.number "1")) none,
            .mk none none none none (some (.number "2")) none,
            .mk none none none none (some (.number "3")) none]) 0
          JsonFixerConfig.default = .ok "[1,2,3]" from rfl]
      simp only [exceptBind_ok]
      rw [show parseTrailing (j + 10) ⟨[], p', none⟩ "[1,2,3]" = .ok "[1,2,3]" from rfl]
    · show fixChars JsonFixerConfig.default ('\x7b' :: '"' :: 'a' :: '"' :: ':' :: '1' ::
          (',' :: (List.replicate j ',' ++ ['\x7d']))) = _
      rw [fixChars_eq]
      rw [show (('\x7b' :: '"' :: 'a' :: '"' :: ':' :: '1' ::
          (',' :: (List.replicate j ',' ++ ['\x7d']))).length + 2) = j + 10 from by
        simp]
      rw [show (advance2 ⟨'\x7b' :: '"' :: 'a' :: '"' :: ':' :: '1' ::
          (',' :: (List.replicate j ',' ++ ['\x7d'])), ⟨1, 0⟩, none⟩).2 =
        ⟨'"' :: 'a' :: '"' :: ':' :: '1' :: (',' :: (List.replicate j ',' ++ ['\x7d'])),
          ⟨1, 1⟩, some (.leftBrace ⟨1, 1⟩)⟩ from rfl]
      simp only [parse, exceptPure_eq, exceptBind_ok]
      rw [show parseValue (j + 10)
          ⟨'"' :: 'a' :: '"' :: ':' :: '1' :: (',' :: (List.replicate j ',' ++ ['\x7d'])),
            ⟨1, 1⟩, some (.leftBrace ⟨1, 1⟩)⟩ =
        parseObjectLoop (j + 7)
          [.mk none (some "a") none none (some (.number "1")) none]
          ⟨List.replicate j ',' ++ ['\x7d'], ⟨1, 7⟩, some (.comma ⟨1, 7⟩)⟩ from rfl]
      obtain ⟨p', hloop⟩ := parseObjectLoop_commas j (j + 7) ⟨1, 7⟩ ⟨1, 7⟩
        [.mk none (some "a") none none (some (.number "1")) none] (by omega)
      rw [hloop]
      simp only [exceptBind_ok, advanceSt_nil]
      rw [show formatValue (j + 10)
          (.object [.mk none (some "a") none none (some (.number "1")) none]) 0
          JsonFixerConfig.default = .ok "\x7b\"a\":1\x7d" from rfl]
      simp only [exceptBind_ok]
      rw [show parseTrailing (j + 10) ⟨[], p', none⟩ "\x7b\"a\":1\x7d" =
        .ok "\x7b\"a\":1\x7d" from rfl]

/-! ## C9: the MissingComma variant is unreachable -/

/-- Is this error the `MissingComma` variant? -/
def JsonFixerError.isMissingComma : JsonFixerError → Bool
  | .Syntax (.missingComma _) => true
  | _ => false

/-- Is the result the `MissingComma` syntax error? -/
def isMissingCommaResult {α : Type} : Except JsonFixerError α → Bool
  | .error e => e.isMissingComma
  | .ok _ => false

theorem isMC_bind {α β : Type} {ra : Except JsonFixerError α}
    {f : α → Except JsonFixerError β}
    (h1 : isMissingCommaResult ra = false)
    (h2 : ∀ a, isMissingCommaResult (f a) = false) :
    isMissingCommaResult (ra >>= f) = false := by
  cases ra with
  | error e => rw [exceptBind_error]; exact h1
  | ok a => rw [exceptBind_ok]; exact h2 a

theorem isMC_error_iff {α : Type} (e : JsonFixerError) :
    isMissingCommaResult (Except.error e : Except JsonFixerError α) =
      e.isMissingComma := rfl

/-- The string scanner never produces `MissingComma`. -/
theorem stringScan_noMC : ∀ (n : Nat) (l : List Char) (quote : Char)
    (sp p : Position) (acc : List Char), l.length ≤ n →
    isMissingCommaResult ((stringScan quote sp p acc l).1 : Except JsonFixerError (Option Token)) = false ∧
    isMissingCommaResult ((stringScanEscape quote sp p acc l).1 : Except JsonFixerError (Option Token)) = false ∧
    isMissingCommaResult ((stringScanUnicode quote sp p acc l).1 : Except JsonFixerError (Option Token)) = false := by
  intro n
  induction n with
  | zero =>
    intro l quote sp p acc hlen
    have hl : l = [] := List.length_eq_zero.mp (Nat.le_zero.mp hlen)
    subst hl
    exact ⟨rfl, rfl, rfl⟩
  | succ m ih =>
    intro l quote sp p acc hlen
    match l, hlen with
    | [], _ => exact ⟨rfl, rfl, rfl⟩
    | c :: rest, hlen =>
      have hlen' : rest.length ≤ m := by
        simp only [List.length_cons] at hlen
        omega
      refine ⟨?_, ?_, ?_⟩
      · by_cases hcq : c = quote
        · subst hcq
          rw [stringScan, if_pos rfl]
          rfl
        · by_cases hbs : c = '\\'
          · subst hbs
            rw [stringScan, if_neg hcq, if_pos rfl]
            exact (ih rest quote sp _ acc hlen').2.1
          · rw [stringScan_step_plain _ _ _ _ _ _ hcq hbs]
            exact (ih rest quote sp _ _ hlen').1
      · rw [stringScanEscape]
        repeat' split
        all_goals
          first
            | exact (ih rest quote sp _ _ hlen').1
            | exact (ih rest quote sp _ _ hlen').2.2
      · match rest, hlen' with
        | [], _ => rfl
        | [a], _ => rfl
        | [a, b], _ => rfl
        | a :: b :: d :: r, hlen' =>
          rw [stringScanUnicode]
          have hrl : r.length ≤ m := by
            simp only [List.length_cons] at hlen'
            omega
          exact (ih r quote sp _ _ hrl).1

/-- `tokenize_number` never produces `MissingComma`. -/
theorem tokenizeNumber_noMC (c : Char) (p : Position) (l : List Char) :
    isMissingCommaResult ((tokenizeNumber c p l).1 : Except JsonFixerError (Option Token)) = false := by
  unfold tokenizeNumber finishNumber
  dsimp only
  repeat' split
  all_goals rfl

/-- `tokenize_identifier` never produces an error at all. -/
theorem tokenizeIdentifier_noMC (c : Char) (p : Position) (l : List Char) :
    isMissingCommaResult ((tokenizeIdentifier c p l).1 : Except JsonFixerError (Option Token)) = false := by
  unfold tokenizeIdentifier
  dsimp only
  repeat' split
  all_goals rfl

/-- `next_token` never produces `MissingComma`. -/
theorem nextToken_noMC (l : List Char) (p : Position) :
    isMissingCommaResult ((nextToken l p).1 : Except JsonFixerError (Option Token)) = false := by
  unfold nextToken
  dsimp only
  repeat' split
  all_goals
    first
      | rfl
      | exact (stringScan_noMC _ _ _ _ _ _ le_rfl).1
      | exact tokenizeNumber_noMC _ _ _
      | exact tokenizeIdentifier_noMC _ _ _

/-- Parser `advance` never produces `MissingComma`. -/
theorem advanceSt_noMC (st : ParserState) :
    isMissingCommaResult (advanceSt st) = false := by
  have h := nextToken_noMC st.input st.pos
  unfold advanceSt advance2
  rcases hnt : nextToken st.input st.pos with ⟨res, rem, p2⟩
  rw [hnt] at h
  cases res with
  | ok t => rfl
  | error e => exact h

/-- `consumeWsInto` never produces `MissingComma`. -/
theorem consumeWsInto_noMC (st : ParserState) :
    isMissingCommaResult (consumeWsInto st) = false := by
  unfold consumeWsInto
  split
  · exact isMC_bind (advanceSt_noMC _) (fun _ => rfl)
  · rfl

/-- The key-onward phase of one `parse_object` iteration (everything after
the optional leading-whitespace consumption) never produces `MissingComma`,
given that `parse_value` and further loop iterations do not. -/
theorem objKeyStep_noMC (fuel : Nat)
    (ihV : ∀ st, isMissingCommaResult (parseValue fuel st) = false)
    (ihOL : ∀ obj st, isMissingCommaResult (parseObjectLoop fuel obj st) = false)
    (obj : List JsonEntryValue) (sbk : Option String) (st1 : ParserState) :
    isMissingCommaResult
      (match st1.current with
      | some (.rightBrace _) => do
        let st2 ← advanceSt st1
        .ok (.object (obj ++ [.mk sbk none none none none none]), st2)
      | some (.comma _) => do
        let st2 ← advanceSt st1
        parseObjectLoop fuel (obj ++ [.mk sbk none none none none none]) st2
      | some (.string k _) | some (.unquotedString k _) => do
        let st2 ← advanceSt st1
        let (sak, st3) ← consumeWsInto st2
        match st3.current with
        | some (.colon _) => do
          let st4 ← advanceSt st3
          let (sbv, st5) ← consumeWsInto st4
          let (v, st6) ← parseValue fuel st5
          let (sav, st7) ← consumeWsInto st6
          let st8 ← advanceSt st7
          parseObjectLoop fuel
            (obj ++ [.mk sbk (some (String.mk k)) sak sbv (some v) sav]) st8
        | some t =>
          .error (.Syntax (.unexpectedToken
            ("\nExpected \x27:\x27 after a \x27key\x27 but found " ++ t.get)
            t.position))
        | none => .error (.Syntax (.unexpectedEndOfInput st3.pos))
      | some t =>
        .error (.Syntax (.unexpectedToken
          ("\nExpected a \x27Key\x27 after \x27\x7b\x27 but found " ++ t.get)
          t.position))
      | none => do
        let st2 ← advanceSt st1
        .ok (.object (obj ++ [.mk sbk none none none none none]), st2)) = false := by
  have hColon : ∀ (sak : Option String) (st3 : ParserState) (k : List Char),
      isMissingCommaResult
        (match st3.current with
        | some (.colon _) => do
          let st4 ← advanceSt st3
          let (sbv, st5) ← consumeWsInto st4
          let (v, st6) ← parseValue fuel st5
          let (sav, st7) ← consumeWsInto st6
          let st8 ← advanceSt st7
          parseObjectLoop fuel
            (obj ++ [.mk sbk (some (String.mk k)) sak sbv (some v) sav]) st8
        | some t =>
          .error (.Syntax (.unexpectedToken
            ("\nExpected \x27:\x27 after a \x27key\x27 but found " ++ t.get)
            t.position))
        | none => .error (.Syntax (.unexpectedEndOfInput st3.pos))) = false := by
    intro sak st3 k
    rcases st3 with ⟨i3, p3, cur3⟩
    rcases cur3 with _ | t3
    · rfl
    · cases t3 <;> try rfl
      case colon q =>
        refine isMC_bind (advanceSt_noMC _) (fun st4 => ?_)
        refine isMC_bind (consumeWsInto_noMC _) (fun y => ?_)
        rcases y with ⟨sbv, st5⟩
        refine isMC_bind (ihV st5) (fun vp => ?_)
        rcases vp with ⟨v, st6⟩
        refine isMC_bind (consumeWsInto_noMC _) (fun z => ?_)
        rcases z with ⟨sav, st7⟩
        refine isMC_bind (advanceSt_noMC _) (fun st8 => ?_)
        exact ihOL _ _
  rcases st1 with ⟨i1, p1, cur1⟩
  rcases cur1 with _ | t1
  · exact isMC_bind (advanceSt_noMC _) (fun _ => rfl)
  · cases t1 <;> try rfl
    case rightBrace q => exact isMC_bind (advanceSt_noMC _) (fun _ => rfl)
    case comma q => exact isMC_bind (advanceSt_noMC _) (fun st2 => ihOL _ st2)
    case string k q =>
      refine isMC_bind (advanceSt_noMC _) (fun st2 => ?_)
      refine isMC_bind (consumeWsInto_noMC _) (fun x => ?_)
      rcases x with ⟨sak, st3⟩
      exact hColon sak st3 k
    case unquotedString k q =>
      refine isMC_bind (advanceSt_noMC _) (fun st2 => ?_)
      refine isMC_bind (consumeWsInto_noMC _) (fun x => ?_)
      rcases x with ⟨sak, st3⟩
      exact hColon sak st3 k

/-- The value-onward phase of one `parse_array` iteration (everything after
the optional leading-whitespace consumption) never produces `MissingComma`. -/
theorem arrTailStep_noMC (fuel : Nat)
    (ihV : ∀ st, isMissingCommaResult (parseValue fuel st) = false)
    (ihAL : ∀ arr st, isMissingCommaResult (parseArrayLoop fuel arr st) = false)
    (arr : List JsonEntryValue) (sbv : Option String) (st1 : ParserState) :
    isMissingCommaResult
      (match st1.current with
      | some (.rightBracket _) => do
        let st2 ← advanceSt st1
        .ok (.array (arr ++ [.mk none none none sbv none none]), st2)
      | some (.comma _) => do
        let st2 ← advanceSt st1
        parseArrayLoop fuel (arr ++ [.mk none none none sbv none none]) st2
      | _ => do
        let currT := st1.current
        let (v, st2) ← parseValue fuel st1
        let st3 ← if currT = st2.current then advanceSt st2 else pure st2
        let (sav, st4) ← consumeWsInto st3
        parseArrayLoop fuel (arr ++ [.mk none none none sbv (some v) sav]) st4) =
      false := by
  have hVal : ∀ st1 : ParserState,
      isMissingCommaResult (do
        let currT := st1.current
        let (v, st2) ← parseValue fuel st1
        let st3 ← if currT = st2.current then advanceSt st2 else pure st2
        let (sav, st4) ← consumeWsInto st3
        parseArrayLoop fuel (arr ++ [.mk none none none sbv (some v) sav]) st4) =
        false := by
    intro st1
    refine isMC_bind (ihV st1) (fun vp => ?_)
    rcases vp with ⟨v, st2⟩
    have jp : ∀ st3 : ParserState,
        isMissingCommaResult (do
          let (sav, st4) ← consumeWsInto st3
          parseArrayLoop fuel (arr ++ [.mk none none none sbv (some v) sav]) st4) =
          false := by
      intro st3
      refine isMC_bind (consumeWsInto_noMC _) (fun z => ?_)
      rcases z with ⟨sav, st4⟩
      exact ihAL _ _
    dsimp only
    split
    · exact isMC_bind (advanceSt_noMC _) (fun y => jp y)
    · exact isMC_bind rfl (fun y => jp y)
  rcases st1 with ⟨i1, p1, cur1⟩
  rcases cur1 with _ | t1
  · exact hVal ⟨i1, p1, none⟩
  · cases t1 <;> first
      | exact isMC_bind (advanceSt_noMC _) (fun _ => rfl)
      | exact isMC_bind (advanceSt_noMC _) (fun st2 => ihAL _ st2)
      | exact hVal ⟨i1, p1, some _⟩

/-- None of the five mutually recursive parser functions can return
`MissingComma`, at any fuel. -/
theorem parser_noMC : ∀ fuel : Nat,
    (∀ st, isMissingCommaResult (parseValue fuel st) = false) ∧
    (∀ st, isMissingCommaResult (parseObject fuel st) = false) ∧
    (∀ obj st, isMissingCommaResult (parseObjectLoop fuel obj st) = false) ∧
    (∀ st, isMissingCommaResult (parseArray fuel st) = false) ∧
    (∀ arr st, isMissingCommaResult (parseArrayLoop fuel arr st) = false) := by
  intro fuel
  induction fuel with
  | zero =>
    exact ⟨fun _ => rfl, fun _ => rfl, fun _ _ => rfl, fun _ => rfl, fun _ _ => rfl⟩
  | succ fuel ih =>
    obtain ⟨ihV, ihO, ihOL, ihA, ihAL⟩ := ih
    refine ⟨?_, ?_, ?_, ?_, ?_⟩
    · intro st
      rcases st with ⟨i, p, cur⟩
      rcases cur with _ | tok
      · rfl
      · cases tok <;> first
          | rfl
          | exact ihO _
          | exact ihA _
          | (rw [parseValue]; dsimp only; split <;> rfl)
    · intro st
      exact isMC_bind (advanceSt_noMC _) (fun st1 => ihOL [] st1)
    · intro obj st
      rcases st with ⟨i, p, cur⟩
      rcases cur with _ | tok
      · exact isMC_bind (advanceSt_noMC _) (fun _ => rfl)
      · cases tok
        case whitespace sp q =>
          exact isMC_bind (advanceSt_noMC _) (fun st2 =>
            objKeyStep_noMC fuel ihV ihOL obj (some (String.mk sp)) st2)
        case rightBrace q => exact isMC_bind (advanceSt_noMC _) (fun _ => rfl)
        case comma q => exact isMC_bind (advanceSt_noMC _) (fun st2 => ihOL obj st2)
        case leftBrace q =>
          exact objKeyStep_noMC fuel ihV ihOL obj none ⟨i, p, some (.leftBrace q)⟩
        case leftBracket q =>
          exact objKeyStep_noMC fuel ihV ihOL obj none ⟨i, p, some (.leftBracket q)⟩
        case rightBracket q =>
          exact objKeyStep_noMC fuel ihV ihOL obj none ⟨i, p, some (.rightBracket q)⟩
        case colon q =>
          exact objKeyStep_noMC fuel ihV ihOL obj none ⟨i, p, some (.colon q)⟩
        case string k q =>
          exact objKeyStep_noMC fuel ihV ihOL obj none ⟨i, p, some (.string k q)⟩
        case number n q =>
          exact objKeyStep_noMC fuel ihV ihOL obj none ⟨i, p, some (.number n q)⟩
        case boolean b q =>
          exact objKeyStep_noMC fuel ihV ihOL obj none ⟨i, p, some (.boolean b q)⟩
        case null q =>
          exact objKeyStep_noMC fuel ihV ihOL obj none ⟨i, p, some (.null q)⟩
        case unquotedString k q =>
          exact objKeyStep_noMC fuel ihV ihOL obj none ⟨i, p, some (.unquotedString k q)⟩
    · intro st
      exact isMC_bind (advanceSt_noMC _) (fun st1 => ihAL [] st1)
    · intro arr st
      rcases st with ⟨i, p, cur⟩
      rcases cur with _ | tok
      · exact isMC_bind (advanceSt_noMC _) (fun _ => rfl)
      · cases tok
        case whitespace sp q =>
          exact isMC_bind (advanceSt_noMC _) (fun st2 =>
            arrTailStep_noMC fuel ihV ihAL arr (some (String.mk sp)) st2)
        case rightBracket q => exact isMC_bind (advanceSt_noMC _) (fun _ => rfl)
        case comma q => exact isMC_bind (advanceSt_noMC _) (fun st2 => ihAL arr st2)
        case leftBrace q =>
          exact arrTailStep_noMC fuel ihV ihAL arr none ⟨i, p, some (.leftBrace q)⟩
        case rightBrace q =>
          exact arrTailStep_noMC fuel ihV ihAL arr none ⟨i, p, some (.rightBrace q)⟩
        case leftBracket q =>
          exact arrTailStep_noMC fuel ihV ihAL arr none ⟨i, p, some (.leftBracket q)⟩
        case colon q =>
          exact arrTailStep_noMC fuel ihV ihAL arr none ⟨i, p, some (.colon q)⟩
        case string k q =>
          exact arrTailStep_noMC fuel ihV ihAL arr none ⟨i, p, some (.string k q)⟩
        case number n q =>
          exact arrTailStep_noMC fuel ihV ihAL arr none ⟨i, p, some (.number n q)⟩
        case boolean b q =>
          exact arrTailStep_noMC fuel ihV ihAL arr none ⟨i, p, some (.boolean b q)⟩
        case null q =>
          exact arrTailStep_noMC fuel ihV ihAL arr none ⟨i, p, some (.null q)⟩
        case unquotedString k q =>
          exact arrTailStep_noMC fuel ihV ihAL arr none ⟨i, p, some (.unquotedString k q)⟩

/-- None of the nine mutually recursive formatter functions can return
`MissingComma`, at any fuel. -/
theorem formatter_noMC : ∀ fuel : Nat,
    (∀ v depth cfg, isMissingCommaResult (formatValue fuel v depth cfg) = false) ∧
    (∀ arr depth cfg, isMissingCommaResult (formatArray fuel arr depth cfg) = false) ∧
    (∀ arr i depth cfg,
      isMissingCommaResult (formatArrayEntries fuel arr i depth cfg) = false) ∧
    (∀ arr depth cfg,
      isMissingCommaResult (formatArrayPreserved fuel arr depth cfg) = false) ∧
    (∀ arr i depth cfg,
      isMissingCommaResult (formatArrayPreservedEntries fuel arr i depth cfg) = false) ∧
    (∀ obj depth cfg, isMissingCommaResult (formatObject fuel obj depth cfg) = false) ∧
    (∀ obj i depth cfg,
      isMissingCommaResult (formatObjectEntries fuel obj i depth cfg) = false) ∧
    (∀ obj depth cfg,
      isMissingCommaResult (formatObjectPreserved fuel obj depth cfg) = false) ∧
    (∀ obj depth cfg,
      isMissingCommaResult (formatObjectPreservedEntries fuel obj depth cfg) = false) := by
  intro fuel
  induction fuel with
  | zero =>
    exact ⟨fun _ _ _ => rfl, fun _ _ _ => rfl, fun _ _ _ _ => rfl, fun _ _ _ => rfl,
      fun _ _ _ _ => rfl, fun _ _ _ => rfl, fun _ _ _ _ => rfl, fun _ _ _ => rfl,
      fun _ _ _ => rfl⟩
  | succ fuel ih =>
    obtain ⟨ihV, ihA, ihAE, ihAP, ihAPE, ihO, ihOE, ihOP, ihOPE⟩ := ih
    refine ⟨?_, ?_, ?_, ?_, ?_, ?_, ?_, ?_, ?_⟩
    · intro v depth cfg
      cases v <;> try rfl
      case array arr =>
        simp only [formatValue]
        split
        · exact ihAP arr depth cfg
        · exact ihA arr depth cfg
      case object obj =>
        simp only [formatValue]
        split
        · exact ihOP obj depth cfg
        · exact ihO obj depth cfg
    · intro arr depth cfg
      simp only [formatArray]
      split
      · rfl
      · exact isMC_bind (ihAE arr 0 depth cfg) (fun _ => rfl)
    · intro arr i depth cfg
      rcases arr with _ | ⟨e, rest⟩
      · rfl
      · simp only [formatArrayEntries]
        rcases hv : e.value with _ | v
        · exact ihAE rest (i + 1) depth cfg
        · exact isMC_bind (ihV v (depth + 1) cfg) (fun r =>
            isMC_bind (ihAE rest (i + 1) depth cfg) (fun t => rfl))
    · intro arr depth cfg
      simp only [formatArrayPreserved]
      split
      · rfl
      · exact isMC_bind (ihAPE arr 0 depth cfg) (fun _ => rfl)
    · intro arr i depth cfg
      rcases arr with _ | ⟨e, rest⟩
      · rfl
      · simp only [formatArrayPreservedEntries]
        rcases hv : e.value with _ | v
        · refine isMC_bind rfl (fun y => ?_)
          exact isMC_bind (ihAPE rest (i + 1) depth cfg) (fun t => rfl)
        · exact isMC_bind (ihV v (depth + 1) cfg) (fun y =>
            isMC_bind (ihAPE rest (i + 1) depth cfg) (fun t => rfl))
    · intro obj depth cfg
      simp only [formatObject]
      split
      · rfl
      · exact isMC_bind (ihOE _ 0 depth cfg) (fun _ => rfl)
    · intro obj i depth cfg
      rcases obj with _ | ⟨e, rest⟩
      · rfl
      · exact isMC_bind (ihV e.get_value (depth + 1) cfg) (fun r =>
          isMC_bind (ihOE rest (i + 1) depth cfg) (fun t => rfl))
    · intro obj depth cfg
      simp only [formatObjectPreserved]
      split
      · rfl
      · exact isMC_bind (ihOPE _ depth cfg) (fun _ => rfl)
    · intro obj depth cfg
      rcases obj with _ | ⟨e, rest⟩
      · rfl
      · simp only [formatObjectPreservedEntries]
        rcases hv : e.value with _ | v
        · exact isMC_bind (ihOPE rest depth cfg) (fun t => rfl)
        · exact isMC_bind (ihV v (depth + 1) cfg) (fun r =>
            isMC_bind (ihOPE rest depth cfg) (fun t => rfl))

/-- The trailing-whitespace loop of `parse` never returns `MissingComma`. -/
theorem parseTrailing_noMC :
    ∀ (fuel : Nat) (st : ParserState) (out : String),
      isMissingCommaResult (parseTrailing fuel st out) = false := by
  intro fuel
  induction fuel with
  | zero => intro st out; rfl
  | succ fuel ih =>
    intro st out
    rcases st with ⟨i, p, cur⟩
    rcases cur with _ | tok
    · rfl
    · cases tok <;> try rfl
      case whitespace sp q =>
        exact isMC_bind (advanceSt_noMC _) (fun st2 => ih st2 out)

/-- `JsonParser::parse` never returns `MissingComma`, at any fuel and in any
configuration. -/
theorem parse_noMC (fuel : Nat) (cfg : JsonFixerConfig) (st : ParserState) :
    isMissingCommaResult (parse fuel cfg st) = false := by
  have hrest : ∀ st1 : ParserState,
      isMissingCommaResult (do
        let (v, st2) ← parseValue fuel st1
        let st3 ← advanceSt st2
        let out ← formatValue fuel v 0 cfg
        parseTrailing fuel st3 out) = false := by
    intro st1
    refine isMC_bind ((parser_noMC fuel).1 st1) (fun vp => ?_)
    rcases vp with ⟨v, st2⟩
    refine isMC_bind (advanceSt_noMC st2) (fun st3 => ?_)
    refine isMC_bind ((formatter_noMC fuel).1 v 0 cfg) (fun out => ?_)
    exact parseTrailing_noMC fuel st3 out
  rw [parse]
  rcases st with ⟨i, p, cur⟩
  rcases cur with _ | tok
  · exact isMC_bind rfl (fun y => hrest y)
  · cases tok <;> first
      | exact isMC_bind rfl (fun y => hrest y)
      | exact isMC_bind (advanceSt_noMC _) (fun y => hrest y)

/-- C9: for every input string and every configuration, `fix_with_config`
(hence also `fix` and the other entry points, which delegate to it) never
returns the `MissingComma` error variant: the variant exists in the error
taxonomy, but no tokenizer, parser, or formatter path produces it — missing
separators are absorbed structurally instead. -/
theorem claim_C9 (input : String) (cfg : JsonFixerConfig) :
    isMissingCommaResult (JsonFixer.fix_with_config input cfg) = false := by
  rw [JsonFixer.fix_with_config, fixChars]
  exact parse_noMC _ cfg _
